import Mathlib

/-!
Verification of the sample normalization and statistics engine of the
`tiff-visualizer` WASM TIFF decoder (`src/wasm/tiff-decoder/src/lib.rs`).

The Rust source is shallowly embedded as follows:
* machine integers (`u8`/`u16`/`u32`/`u64`) become `Nat`, signed integers
  (`i8`..`i64`) become `Int`; byte buffers (`Vec<u8>`) become `List Nat`;
* IEEE floating-point data (`f16`/`f32`/`f64`) is carried as its raw bit
  pattern (a `Nat` below `2^16` / `2^32` / `2^64`); finiteness and NaN tests,
  comparisons, and min/max are defined on bit patterns through their exact
  semantic value (no floating-point *arithmetic* other than format
  conversions occurs in the source, so this embedding is exact);
* the semantic value of an `f64` expression (the type of `min_value` /
  `max_value` in `TiffResult`) is the inductive `FVal`:
  NaN, a signed infinity, or an exact finite rational.
-/

/-! ### Numeric primitives -/

/-- Fueled base-2 logarithm: `log2F fuel n` is `⌊log₂ n⌋` for `n < 2 ^ fuel`
(and `n ≥ 1`).  Written with structural fuel so the kernel can evaluate it. -/
def log2F : Nat → Nat → Nat
  | 0, _ => 0
  | f + 1, n => if 2 ≤ n then log2F f (n / 2) + 1 else 0

/-- `⌊log₂ n⌋`, correct for every `n < 2 ^ 4200` (all values appearing in the
decoder fit well below this bound). -/
def natLog2 (n : Nat) : Nat := log2F 4200 n

/-- Pick the rounded quotient: given quotient `q`, remainder `r` and the
half-way point `half`, round up, down, or to even. -/
def roundPick (q r half : Nat) : Nat :=
  if half < r then q + 1
  else if r < half then q
  else if q % 2 = 0 then q else q + 1

/-- Round `v / 2 ^ k` to the nearest integer, ties to even
(the IEEE-754 default rounding used by Rust's numeric casts). -/
def natRoundSig (v k : Nat) : Nat :=
  if k = 0 then v
  else roundPick (v / 2 ^ k) (v % 2 ^ k) (2 ^ (k - 1))

theorem log2F_correct : ∀ (f n : Nat), n < 2 ^ f → 1 ≤ n →
    2 ^ log2F f n ≤ n ∧ n < 2 ^ (log2F f n + 1) := by
  intro f
  induction f with
  | zero => intro n hn h1; omega
  | succ f ih =>
    intro n hn h1
    by_cases h2 : 2 ≤ n
    · have hhalf : n / 2 < 2 ^ f := by
        have : n < 2 * 2 ^ f := by
          have := pow_succ 2 f
          omega
        omega
      have h1' : 1 ≤ n / 2 := by omega
      obtain ⟨hl, hr⟩ := ih (n / 2) hhalf h1'
      simp only [log2F, if_pos h2]
      refine ⟨?_, ?_⟩
      · have h3 : 2 ^ (log2F f (n / 2) + 1) = 2 ^ log2F f (n / 2) * 2 := by ring
        omega
      · have h3 : 2 ^ (log2F f (n / 2) + 1 + 1) = 2 ^ (log2F f (n / 2) + 1) * 2 := by
          ring
        omega
    · simp only [log2F, if_neg h2]
      omega

theorem natLog2_le {n : Nat} (h1 : 1 ≤ n) (h : n < 2 ^ 4200) :
    2 ^ natLog2 n ≤ n := (log2F_correct 4200 n h h1).1

theorem natLog2_lt {n : Nat} (h1 : 1 ≤ n) (h : n < 2 ^ 4200) :
    n < 2 ^ (natLog2 n + 1) := (log2F_correct 4200 n h h1).2

theorem roundPick_bounds (q r half : Nat) :
    q ≤ roundPick q r half ∧ roundPick q r half ≤ q + 1 := by
  unfold roundPick
  split_ifs <;> omega

theorem roundPick_mono_r {q r1 r2 half : Nat} (h : r1 ≤ r2) :
    roundPick q r1 half ≤ roundPick q r2 half := by
  unfold roundPick
  split_ifs <;> omega

theorem natRoundSig_ge (v k : Nat) : v / 2 ^ k ≤ natRoundSig v k := by
  unfold natRoundSig
  split
  · rename_i h
    subst h
    simp
  · exact (roundPick_bounds _ _ _).1

theorem natRoundSig_le (v k : Nat) : natRoundSig v k ≤ v / 2 ^ k + 1 := by
  unfold natRoundSig
  split
  · rename_i h
    subst h
    simp
  · exact (roundPick_bounds _ _ _).2

theorem natRoundSig_mono {a b : Nat} (k : Nat) (h : a ≤ b) :
    natRoundSig a k ≤ natRoundSig b k := by
  rcases Nat.eq_or_lt_of_le (Nat.div_le_div_right (c := 2 ^ k) h) with heq | hlt
  · unfold natRoundSig
    split
    · exact h
    · have hk : 0 < 2 ^ k := Nat.pos_pow_of_pos k (by norm_num)
      have hr : a % 2 ^ k ≤ b % 2 ^ k := by
        have ha := Nat.div_add_mod a (2 ^ k)
        have hb := Nat.div_add_mod b (2 ^ k)
        rw [heq] at ha
        omega
      rw [heq]
      exact roundPick_mono_r hr
  · calc natRoundSig a k ≤ a / 2 ^ k + 1 := natRoundSig_le a k
      _ ≤ b / 2 ^ k := hlt
      _ ≤ natRoundSig b k := natRoundSig_ge b k

/-! ### Semantic values of IEEE doubles -/

/-- The exact mathematical value of an IEEE-754 floating-point datum:
NaN, a signed infinity (`inf true` is `-∞`), or an exact rational. -/
inductive FVal where
  | nan : FVal
  | inf : Bool → FVal
  | fin : ℚ → FVal
deriving DecidableEq, Repr

namespace FVal

/-- IEEE `≤` on semantic values: any comparison involving NaN is false. -/
def leb : FVal → FVal → Bool
  | .nan, _ => false
  | _, .nan => false
  | .inf true, _ => true
  | _, .inf false => true
  | .fin a, .fin b => a ≤ b
  | .inf false, _ => false
  | _, .inf true => false

/-- IEEE `<` on semantic values: any comparison involving NaN is false. -/
def ltb (a b : FVal) : Bool := a.leb b && !(b.leb a)

/-- Whether the value is NaN. -/
def isNan : FVal → Bool
  | .nan => true
  | _ => false

theorem leb_refl {a : FVal} (h : a.isNan = false) : a.leb a = true := by
  cases a with
  | nan => simp [isNan] at h
  | inf s => cases s <;> rfl
  | fin q => simp [leb]

theorem leb_nonnan_left {a b : FVal} (h : a.leb b = true) : a.isNan = false := by
  cases a <;> cases b <;> simp_all [leb, isNan]

theorem leb_nonnan_right {a b : FVal} (h : a.leb b = true) : b.isNan = false := by
  cases a <;> cases b <;> simp_all [leb, isNan]

theorem leb_trans {a b c : FVal} (h1 : a.leb b = true) (h2 : b.leb c = true) :
    a.leb c = true := by
  rcases a with _ | (_ | _) | qa <;> rcases b with _ | (_ | _) | qb <;>
    rcases c with _ | (_ | _) | qc <;> simp_all [leb] <;>
    try exact le_trans h1 h2

theorem leb_total {a b : FVal} (ha : a.isNan = false) (hb : b.isNan = false) :
    a.leb b = true ∨ b.leb a = true := by
  rcases a with _ | (_ | _) | qa <;> rcases b with _ | (_ | _) | qb <;>
    simp_all [leb, isNan] <;> try exact le_total qa qb

theorem ltb_leb {a b : FVal} (h : ltb a b = true) : a.leb b = true := by
  unfold ltb at h
  exact (Bool.and_eq_true _ _ |>.mp h).1

theorem not_ltb_leb {a b : FVal} (ha : a.isNan = false) (hb : b.isNan = false)
    (h : ltb a b = false) : b.leb a = true := by
  unfold ltb at h
  rcases leb_total ha hb with h2 | h2
  · rw [h2] at h
    simp at h
    exact h
  · exact h2

end FVal

/-- Rust `f64::min` on semantic values: if one argument is NaN the other is
returned, otherwise the numerically smaller one. -/
def f64min (a b : FVal) : FVal :=
  if a.isNan then b
  else if b.isNan then a
  else if a.leb b then a else b

/-- Rust `f64::max` on semantic values: if one argument is NaN the other is
returned, otherwise the numerically larger one. -/
def f64max (a b : FVal) : FVal :=
  if a.isNan then b
  else if b.isNan then a
  else if a.leb b then b else a

/-! ### IEEE bit-pattern decoding -/

/-- Sign bit of an `f32` bit pattern. -/
def f32_sign (b : Nat) : Nat := b / 2 ^ 31 % 2
/-- Exponent field of an `f32` bit pattern. -/
def f32_exp (b : Nat) : Nat := b / 2 ^ 23 % 2 ^ 8
/-- Fraction field of an `f32` bit pattern. -/
def f32_frac (b : Nat) : Nat := b % 2 ^ 23

/-- Rust `f32::is_nan` on the bit pattern. -/
def f32_is_nan (b : Nat) : Bool := f32_exp b = 255 && f32_frac b ≠ 0
/-- Rust `f32::is_finite` on the bit pattern. -/
def f32_is_finite (b : Nat) : Bool := f32_exp b ≠ 255

/-- Exact rational value of a finite `f32` bit pattern
(junk on NaN/infinity patterns). -/
def val32q (b : Nat) : ℚ :=
  let num : Int :=
    if f32_exp b = 0 then (f32_frac b : Int)
    else ((2 ^ 23 + f32_frac b) * 2 ^ (f32_exp b - 1) : Nat)
  mkRat (if f32_sign b = 1 then -num else num) (2 ^ 149)

/-- Semantic value of an `f32` bit pattern. -/
def val32sem (b : Nat) : FVal :=
  if f32_exp b = 255 then
    (if f32_frac b = 0 then .inf (f32_sign b = 1) else .nan)
  else .fin (val32q b)

/-- Sign bit of an `f64` bit pattern. -/
def f64_sign (b : Nat) : Nat := b / 2 ^ 63 % 2
/-- Exponent field of an `f64` bit pattern. -/
def f64_exp (b : Nat) : Nat := b / 2 ^ 52 % 2 ^ 11
/-- Fraction field of an `f64` bit pattern. -/
def f64_frac (b : Nat) : Nat := b % 2 ^ 52

/-- Rust `f64::is_nan` on the bit pattern. -/
def f64_is_nan (b : Nat) : Bool := f64_exp b = 2047 && f64_frac b ≠ 0
/-- Rust `f64::is_finite` on the bit pattern. -/
def f64_is_finite (b : Nat) : Bool := f64_exp b ≠ 2047

/-- Exact rational value of a finite `f64` bit pattern
(junk on NaN/infinity patterns). -/
def val64q (b : Nat) : ℚ :=
  let num : Int :=
    if f64_exp b = 0 then (f64_frac b : Int)
    else ((2 ^ 52 + f64_frac b) * 2 ^ (f64_exp b - 1) : Nat)
  mkRat (if f64_sign b = 1 then -num else num) (2 ^ 1074)

/-- Semantic value of an `f64` bit pattern. -/
def val64sem (b : Nat) : FVal :=
  if f64_exp b = 2047 then
    (if f64_frac b = 0 then .inf (f64_sign b = 1) else .nan)
  else .fin (val64q b)

/-- Sign bit of an `f16` bit pattern. -/
def f16_sign (b : Nat) : Nat := b / 2 ^ 15 % 2
/-- Exponent field of an `f16` bit pattern. -/
def f16_exp (b : Nat) : Nat := b / 2 ^ 10 % 2 ^ 5
/-- Fraction field of an `f16` bit pattern. -/
def f16_frac (b : Nat) : Nat := b % 2 ^ 10

/-! ### Format conversions (IEEE round-to-nearest, ties to even) -/

/-- Round the exact value `(-1)^neg * M * 2^E` to the nearest `f32`,
ties to even, returning the resulting `f32` bit pattern.  This is the
rounding performed by Rust's `as f32` casts. -/
def roundToF32 (neg : Bool) (M : Nat) (E : Int) : Nat :=
  let sbit := if neg then 2 ^ 31 else 0
  if M = 0 then sbit
  else
    let L := natLog2 M
    let t : Int := E + L
    if -126 ≤ t then
      let m24 := if L ≤ 23 then M * 2 ^ (23 - L) else natRoundSig M (L - 23)
      if m24 = 2 ^ 24 then
        (if 127 < t + 1 then sbit + 255 * 2 ^ 23
         else sbit + (t + 1 + 127).toNat * 2 ^ 23)
      else if 127 < t then sbit + 255 * 2 ^ 23
      else sbit + (t + 127).toNat * 2 ^ 23 + (m24 - 2 ^ 23)
    else
      let sh := E + 149
      sbit + (if 0 ≤ sh then M * 2 ^ sh.toNat else natRoundSig M (-sh).toNat)

/-- Rust `half::f16::to_f32`: widen an `f16` bit pattern to an `f32` bit
pattern (an exact conversion). -/
def f16_to_f32 (h : Nat) : Nat :=
  let s := f16_sign h
  if f16_exp h = 31 then s * 2 ^ 31 + 255 * 2 ^ 23 + f16_frac h * 2 ^ 13
  else
    roundToF32 (s = 1)
      (if f16_exp h = 0 then f16_frac h
       else (2 ^ 10 + f16_frac h) * 2 ^ (f16_exp h - 1))
      (-24)

/-- Rust `val as f32` for `val : f64`: narrow an `f64` bit pattern to an
`f32` bit pattern, rounding to nearest (ties to even); NaN maps to the
canonical quiet NaN with the sign preserved. -/
def f64_to_f32 (b : Nat) : Nat :=
  let s := f64_sign b
  if f64_exp b = 2047 then
    (if f64_frac b = 0 then s * 2 ^ 31 + 255 * 2 ^ 23
     else s * 2 ^ 31 + 255 * 2 ^ 23 + 2 ^ 22)
  else
    roundToF32 (s = 1)
      (if f64_exp b = 0 then f64_frac b
       else (2 ^ 52 + f64_frac b) * 2 ^ (f64_exp b - 1))
      (-1074)

/-- Rust `v as f32` for an unsigned integer `v`: bit pattern of the rounded
32-bit float. -/
def natCastF32 (v : Nat) : Nat := roundToF32 false v 0

/-- Rust `v as f32` for a signed integer `v`: bit pattern of the rounded
32-bit float (used only to state what "the original value cast to float"
means for signed samples). -/
def intCastF32 (v : Int) : Nat := roundToF32 (v < 0) v.natAbs 0

/-- Round a nonnegative integer to 53 significant bits, ties to even: the
exact integer value of Rust's `v as f64` for `v : u64`. -/
def rnd53 (v : Nat) : Nat :=
  if v < 2 ^ 53 then v
  else
    let k := natLog2 v - 52
    natRoundSig v k * 2 ^ k

/-- Rust `v as f64` for an unsigned integer: the semantic value (exact for
`v < 2^53`, rounded to nearest even above). -/
def castU64F64 (v : Nat) : FVal := .fin (mkRat (rnd53 v) 1)

/-- Rust `v as f64` for a signed integer: the semantic value. -/
def castI64F64 (v : Int) : FVal :=
  .fin (mkRat (if v < 0 then -(rnd53 v.natAbs : Int) else (rnd53 v.natAbs : Int)) 1)

/-! ### Little-endian byte encoding (Rust `to_le_bytes` / `from_le_bytes`) -/

/-- Rust `u16::to_le_bytes`. -/
def u16_le (v : Nat) : List Nat := [v % 2 ^ 8, v / 2 ^ 8 % 2 ^ 8]

/-- Rust `u32::to_le_bytes` (also used for the bytes of an `f32` bit
pattern, i.e. `f32::to_le_bytes`). -/
def u32_le (v : Nat) : List Nat :=
  [v % 2 ^ 8, v / 2 ^ 8 % 2 ^ 8, v / 2 ^ 16 % 2 ^ 8, v / 2 ^ 24 % 2 ^ 8]

/-- Rust `u64::to_le_bytes`. -/
def u64_le (v : Nat) : List Nat :=
  [v % 2 ^ 8, v / 2 ^ 8 % 2 ^ 8, v / 2 ^ 16 % 2 ^ 8, v / 2 ^ 24 % 2 ^ 8,
   v / 2 ^ 32 % 2 ^ 8, v / 2 ^ 40 % 2 ^ 8, v / 2 ^ 48 % 2 ^ 8, v / 2 ^ 56 % 2 ^ 8]

/-- Two's-complement reinterpretation of a signed integer as an unsigned
`w`-bit integer (Rust `v as u8` for `i8`, and the bit pattern encoded by
`i16::to_le_bytes` / `i32::to_le_bytes` / `i64::to_le_bytes`). -/
def toUnsigned (w : Nat) (v : Int) : Nat := (v % (2 ^ w : Nat)).toNat

/-- Rust `u16::from_le_bytes` on a 2-byte chunk. -/
def from_le2 (c : List Nat) : Nat := c.getD 0 0 + c.getD 1 0 * 2 ^ 8

/-- Rust `u32::from_le_bytes` (and byte reassembly of `f32::from_le_bytes`)
on a 4-byte chunk. -/
def from_le4 (c : List Nat) : Nat :=
  c.getD 0 0 + c.getD 1 0 * 2 ^ 8 + c.getD 2 0 * 2 ^ 16 + c.getD 3 0 * 2 ^ 24

/-- Rust `ChunksExact`: split into consecutive `k`-element chunks, silently
dropping a trailing remainder shorter than `k` (fueled for kernel
evaluation; the fuel is the initial length, which always suffices). -/
def chunksExactAux (k : Nat) : Nat → List Nat → List (List Nat)
  | 0, _ => []
  | f + 1, l =>
    if 0 < k ∧ k ≤ l.length then l.take k :: chunksExactAux k f (l.drop k)
    else []

/-- Rust slice `chunks_exact(k)` collected to a list. -/
def chunksExact (k : Nat) (l : List Nat) : List (List Nat) :=
  chunksExactAux k l.length l

/-! ### Stats Reducer (`compute_stats_*`, lib.rs lines 302-405) -/

/-- The shared single-pass min/max loop of the eight integer
`compute_stats_*` functions: fold `min`/`max` over the data starting from
the type's max/min sentinels. -/
def minMaxFold {α : Type} [LinearOrder α] (init : α × α) (data : List α) : α × α :=
  data.foldl (fun acc v => (min acc.1 v, max acc.2 v)) init

/-- `compute_stats_u8`: min/max with sentinels `u8::MAX`/`u8::MIN`. -/
def compute_stats_u8 (data : List Nat) : Nat × Nat := minMaxFold (2 ^ 8 - 1, 0) data

/-- `compute_stats_u16`: min/max with sentinels `u16::MAX`/`u16::MIN`. -/
def compute_stats_u16 (data : List Nat) : Nat × Nat := minMaxFold (2 ^ 16 - 1, 0) data

/-- `compute_stats_u32`: min/max with sentinels `u32::MAX`/`u32::MIN`. -/
def compute_stats_u32 (data : List Nat) : Nat × Nat := minMaxFold (2 ^ 32 - 1, 0) data

/-- `compute_stats_u64`: min/max with sentinels `u64::MAX`/`u64::MIN`. -/
def compute_stats_u64 (data : List Nat) : Nat × Nat := minMaxFold (2 ^ 64 - 1, 0) data

/-- `compute_stats_i8`: min/max with sentinels `i8::MAX`/`i8::MIN`. -/
def compute_stats_i8 (data : List Int) : Int × Int :=
  minMaxFold (2 ^ 7 - 1, -2 ^ 7) data

/-- `compute_stats_i16`: min/max with sentinels `i16::MAX`/`i16::MIN`. -/
def compute_stats_i16 (data : List Int) : Int × Int :=
  minMaxFold (2 ^ 15 - 1, -2 ^ 15) data

/-- `compute_stats_i32`: min/max with sentinels `i32::MAX`/`i32::MIN`. -/
def compute_stats_i32 (data : List Int) : Int × Int :=
  minMaxFold (2 ^ 31 - 1, -2 ^ 31) data

/-- `compute_stats_i64`: min/max with sentinels `i64::MAX`/`i64::MIN`. -/
def compute_stats_i64 (data : List Int) : Int × Int :=
  minMaxFold (2 ^ 63 - 1, -2 ^ 63) data

/-- The shared loop of the floating-point stats reducers: starting from the
`(+∞, -∞)` accumulators, fold over the data and, for each element whose bit
pattern passes the guard `p` (the source's `!v.is_nan() && v.is_finite()`),
take `f64::min`/`f64::max` with its semantic value `g v`; other elements
leave the accumulators unchanged. -/
def statFold (p : Nat → Bool) (g : Nat → ℚ) (data : List Nat) : FVal × FVal :=
  data.foldl
    (fun acc v =>
      if p v then (f64min acc.1 (.fin (g v)), f64max acc.2 (.fin (g v)))
      else acc)
    (.inf false, .inf true)

/-- `compute_stats_f32` (lib.rs 382-393): skip any `v` with
`v.is_nan() || !v.is_finite()`; accumulate min/max of `v as f64`
(an exact widening, so the semantic value is `val32q v`). -/
def compute_stats_f32 (data : List Nat) : FVal × FVal :=
  statFold (fun v => !f32_is_nan v && f32_is_finite v) val32q data

/-- `compute_stats_f64` (lib.rs 395-405): skip any `v` with
`v.is_nan() || !v.is_finite()`; accumulate min/max of the value itself. -/
def compute_stats_f64 (data : List Nat) : FVal × FVal :=
  statFold (fun v => !f64_is_nan v && f64_is_finite v) val64q data

/-! ### Decode Orchestrator core (lib.rs 131-298) -/

/-- The `tiff::decoder::DecodingResult` tagged union: the eleven sample
kinds the external decoder can return.  Unsigned payloads are `Nat`,
signed payloads are `Int`, float payloads are IEEE bit patterns. -/
inductive DecodingResult where
  | U8 (data : List Nat)
  | U16 (data : List Nat)
  | U32 (data : List Nat)
  | U64 (data : List Nat)
  | I8 (data : List Int)
  | I16 (data : List Int)
  | I32 (data : List Int)
  | I64 (data : List Int)
  | F32 (data : List Nat)
  | F64 (data : List Nat)
  | F16 (data : List Nat)
deriving DecidableEq

/-- One step of the `F16` loop body (lib.rs 261-274): widen to `f32`,
update min via `f32_val < min_val`, update max via `f32_val > max_val`,
append the widened value's little-endian bytes.  Note the source performs
NO finiteness test in this branch. -/
def f16Step (acc : List Nat × Nat × Nat) (h : Nat) : List Nat × Nat × Nat :=
  let f := f16_to_f32 h
  (acc.1 ++ u32_le f,
   (if FVal.ltb (val32sem f) (val32sem acc.2.1) then f else acc.2.1),
   (if FVal.ltb (val32sem acc.2.2) (val32sem f) then f else acc.2.2))

/-- `f32::INFINITY` bit pattern. -/
def posInf32 : Nat := 255 * 2 ^ 23
/-- `f32::NEG_INFINITY` bit pattern. -/
def negInf32 : Nat := 2 ^ 31 + 255 * 2 ^ 23

/-- The `match decode_result { ... }` of `decode_tiff` (lib.rs 191-275):
for each sample kind produce the canonical little-endian byte buffer, the
sample-format tag, and the `f64` min/max statistics. -/
def processResult : DecodingResult → List Nat × Nat × FVal × FVal
  | .U8 data =>
      let s := compute_stats_u8 data
      (data, 1, castU64F64 s.1, castU64F64 s.2)
  | .U16 data =>
      let s := compute_stats_u16 data
      (data.flatMap u16_le, 1, castU64F64 s.1, castU64F64 s.2)
  | .U32 data =>
      let s := compute_stats_u32 data
      (data.flatMap u32_le, 1, castU64F64 s.1, castU64F64 s.2)
  | .U64 data =>
      let s := compute_stats_u64 data
      (data.flatMap u64_le, 1, castU64F64 s.1, castU64F64 s.2)
  | .I8 data =>
      let s := compute_stats_i8 data
      (data.map (toUnsigned 8), 2, castI64F64 s.1, castI64F64 s.2)
  | .I16 data =>
      let s := compute_stats_i16 data
      (data.flatMap (fun v => u16_le (toUnsigned 16 v)), 2,
       castI64F64 s.1, castI64F64 s.2)
  | .I32 data =>
      let s := compute_stats_i32 data
      (data.flatMap (fun v => u32_le (toUnsigned 32 v)), 2,
       castI64F64 s.1, castI64F64 s.2)
  | .I64 data =>
      let s := compute_stats_i64 data
      (data.flatMap (fun v => u64_le (toUnsigned 64 v)), 2,
       castI64F64 s.1, castI64F64 s.2)
  | .F32 data =>
      let s := compute_stats_f32 data
      (data.flatMap u32_le, 3, s.1, s.2)
  | .F64 data =>
      let s := compute_stats_f64 data
      (data.flatMap (fun v => u32_le (f64_to_f32 v)), 3, s.1, s.2)
  | .F16 data =>
      let r := data.foldl f16Step ([], posInf32, negInf32)
      (r.1, 3, val32sem r.2.1, val32sem r.2.2)

/-- The `TiffResult` record (lib.rs 16-32).  `min_value`/`max_value` are
the semantic values of the stored `f64` fields. -/
structure TiffResult where
  width : Nat
  height : Nat
  channels : Nat
  bits_per_sample : Nat
  sample_format : Nat
  compression : Nat
  predictor : Nat
  photometric_interpretation : Nat
  planar_configuration : Nat
  data : List Nat
  min_value : FVal
  max_value : FVal
deriving DecidableEq

/-- `TiffResult::get_data_as_f32` (lib.rs 99-125): the Float32 View
Converter.  Returns the list of `f32` bit patterns. -/
def TiffResult.get_data_as_f32 (r : TiffResult) : List Nat :=
  match r.sample_format with
  | 3 => (chunksExact 4 r.data).map from_le4
  | 1 => match r.bits_per_sample with
         | 8 => r.data.map natCastF32
         | 16 => (chunksExact 2 r.data).map (fun c => natCastF32 (from_le2 c))
         | 32 => (chunksExact 4 r.data).map (fun c => natCastF32 (from_le4 c))
         | _ => []
  | 2 => match r.bits_per_sample with
         | 8 => r.data.map natCastF32
         | 16 => (chunksExact 2 r.data).map (fun c => natCastF32 (from_le2 c))
         | 32 => (chunksExact 4 r.data).map (fun c => natCastF32 (from_le4 c))
         | _ => []
  | _ => []

/-- TIFF tag id `Compression`. -/
def tagCompression : Nat := 259
/-- TIFF tag id `Predictor`. -/
def tagPredictor : Nat := 317
/-- TIFF tag id `PhotometricInterpretation`. -/
def tagPhotometric : Nat := 262
/-- TIFF tag id `PlanarConfiguration`. -/
def tagPlanar : Nat := 284

/-- The Metadata Extractor (lib.rs 167-182): the external decoder's
`get_tag_u32` is modelled as a partial map from tag ids to values; each of
the four fields is looked up independently and defaulted to 1 via
`unwrap_or(1)`. -/
def extract_metadata (tags : Nat → Option Nat) : Nat × Nat × Nat × Nat :=
  ((tags tagCompression).getD 1,
   (tags tagPredictor).getD 1,
   (tags tagPhotometric).getD 1,
   (tags tagPlanar).getD 1)

/-- Assembly of the `TiffResult` (lib.rs 167-298) once the external
decoder has supplied dimensions, channel count, bits per sample, the tag
map and the raw typed pixel data: extract the defaulted metadata, dispatch
the typed data to the Canonical Encoder + Stats Reducer, and build the
record. -/
def decode_core (width height channels bits_per_sample : Nat)
    (tags : Nat → Option Nat) (dr : DecodingResult) : TiffResult :=
  let md := extract_metadata tags
  let r := processResult dr
  { width := width
    height := height
    channels := channels
    bits_per_sample := bits_per_sample
    sample_format := r.2.1
    compression := md.1
    predictor := md.2.1
    photometric_interpretation := md.2.2.1
    planar_configuration := md.2.2.2
    data := r.1
    min_value := r.2.2.1
    max_value := r.2.2.2 }

/-! ### Helper lemmas: chunking and flattening -/

theorem chunksExactAux_congr (k : Nat) :
    ∀ f1 f2 (l : List Nat), l.length ≤ f1 → l.length ≤ f2 →
      chunksExactAux k f1 l = chunksExactAux k f2 l := by
  intro f1
  induction f1 with
  | zero =>
    intro f2 l h1 h2
    match f2 with
    | 0 => rfl
    | f2 + 1 =>
      simp only [chunksExactAux]
      rw [if_neg]
      rintro ⟨hk, hkl⟩
      omega
  | succ f1 ih =>
    intro f2 l h1 h2
    match f2 with
    | 0 =>
      simp only [chunksExactAux]
      rw [if_neg]
      rintro ⟨hk, hkl⟩
      omega
    | f2 + 1 =>
      simp only [chunksExactAux]
      by_cases hc : 0 < k ∧ k ≤ l.length
      · rw [if_pos hc, if_pos hc]
        congr 1
        exact ih f2 (l.drop k) (by simp; omega) (by simp; omega)
      · rw [if_neg hc, if_neg hc]

theorem chunksExact_eq_aux {k : Nat} (f : Nat) (l : List Nat) (h : l.length ≤ f) :
    chunksExact k l = chunksExactAux k f l :=
  chunksExactAux_congr k l.length f l (le_refl _) h

theorem chunksExact_cons {k : Nat} (xs rest : List Nat) (hx : xs.length = k)
    (hk : 0 < k) : chunksExact k (xs ++ rest) = xs :: chunksExact k rest := by
  obtain ⟨k', rfl⟩ : ∃ k', k = k' + 1 := ⟨k - 1, by omega⟩
  have h1 : (xs ++ rest).length ≤ rest.length + k' + 1 := by simp [hx]; omega
  rw [chunksExact_eq_aux (rest.length + k' + 1) (xs ++ rest) h1]
  simp only [chunksExactAux]
  rw [if_pos (by constructor <;> simp [hx] <;> omega)]
  congr 1
  · rw [List.take_append_of_le_length (by omega), ← hx, List.take_length]
  · rw [List.drop_append_of_le_length (by omega), ← hx, List.drop_length,
      List.nil_append]
    exact (chunksExact_eq_aux (rest.length + k') rest (by omega)).symm

theorem chunksExact_flatMap {α : Type} {k : Nat} (hk : 0 < k) (f : α → List Nat)
    (l : List α) (hf : ∀ x ∈ l, (f x).length = k) :
    chunksExact k (l.flatMap f) = l.map f := by
  induction l with
  | nil => rfl
  | cons a t ih =>
    rw [List.flatMap_cons, chunksExact_cons _ _ (hf a (by simp)) hk, List.map_cons]
    congr 1
    exact ih (fun x hx => hf x (by simp [hx]))

theorem flatMap_length_const {α : Type} {k : Nat} (f : α → List Nat)
    (l : List α) (hf : ∀ x ∈ l, (f x).length = k) :
    (l.flatMap f).length = l.length * k := by
  induction l with
  | nil => simp
  | cons a t ih =>
    rw [List.flatMap_cons]
    simp only [List.length_append, List.length_cons]
    rw [hf a (by simp), ih (fun x hx => hf x (by simp [hx]))]
    ring

theorem chunksExact_length {k : Nat} (hk : 0 < k) (l : List Nat) :
    (chunksExact k l).length = l.length / k := by
  suffices h : ∀ f (l : List Nat), l.length ≤ f →
      (chunksExactAux k f l).length = l.length / k by
    exact h l.length l (le_refl _)
  intro f
  induction f with
  | zero =>
    intro l h
    have : l.length = 0 := by omega
    simp [chunksExactAux, this, Nat.zero_div]
  | succ f ih =>
    intro l h
    simp only [chunksExactAux]
    by_cases hc : 0 < k ∧ k ≤ l.length
    · rw [if_pos hc]
      simp only [List.length_cons]
      rw [ih (l.drop k) (by simp; omega)]
      simp only [List.length_drop]
      rw [Nat.div_eq_sub_div hk hc.2]
    · rw [if_neg hc]
      have : l.length < k := by omega
      simp [Nat.div_eq_of_lt this]

theorem chunksExact_append_junk {k : Nat} (hk : 0 < k) (d e : List Nat)
    (hd : k ∣ d.length) (he : e.length < k) :
    chunksExact k (d ++ e) = chunksExact k d := by
  suffices h : ∀ f (d : List Nat), d.length + e.length ≤ f → k ∣ d.length →
      chunksExactAux k f (d ++ e) = chunksExactAux k f d by
    rw [chunksExact_eq_aux (d.length + e.length) (d ++ e) (by simp),
      chunksExact_eq_aux (d.length + e.length) d (by omega)]
    exact h _ d (le_refl _) hd
  intro f
  induction f with
  | zero => intro d h _; rfl
  | succ f ih =>
    intro d h hdvd
    by_cases hc : k ≤ d.length
    · simp only [chunksExactAux]
      rw [if_pos (by simp; omega), if_pos (by omega)]
      rw [List.take_append_of_le_length hc, List.drop_append_of_le_length hc]
      congr 1
      exact ih (d.drop k) (by simp; omega) (by simp; exact Nat.dvd_sub' hdvd (dvd_refl k))
    · have hd0 : d.length = 0 := by
        rcases Nat.eq_zero_or_pos d.length with h0 | h0
        · exact h0
        · exact absurd (Nat.le_of_dvd h0 hdvd) hc
      have : d = [] := List.length_eq_zero.mp hd0
      subst this
      simp only [List.nil_append, chunksExactAux]
      rw [if_neg (by simp; omega), if_neg (by simp; omega)]

theorem chunksExact_get? {k : Nat} (hk : 0 < k) (l : List Nat) (i : Nat)
    (hi : i < l.length / k) :
    (chunksExact k l).get? i = some ((l.drop (k * i)).take k) := by
  suffices h : ∀ f (l : List Nat) i, l.length ≤ f → i < l.length / k →
      (chunksExactAux k f l).get? i = some ((l.drop (k * i)).take k) by
    exact h l.length l i (le_refl _) hi
  intro f
  induction f with
  | zero =>
    intro l i h hi
    have : l.length = 0 := by omega
    rw [this] at hi
    simp [Nat.zero_div] at hi
  | succ f ih =>
    intro l i h hi
    have hkl : k ≤ l.length := by
      by_contra hlt
      rw [Nat.div_eq_of_lt (by omega)] at hi
      omega
    simp only [chunksExactAux]
    rw [if_pos ⟨hk, hkl⟩]
    match i with
    | 0 => simp
    | i + 1 =>
      simp only [List.get?_cons_succ]
      rw [ih (l.drop k) i (by simp; omega)
        (by simp only [List.length_drop]; rw [Nat.div_eq_sub_div hk hkl] at hi; omega)]
      rw [List.drop_drop]
      congr 3
      ring

/-! ### Helper lemmas: integer min/max folds -/

theorem minMaxFold_invariant {α : Type} [LinearOrder α] (l : List α) :
    ∀ init : α × α, init.1 ≤ init.2 →
      (minMaxFold init l).1 ≤ (minMaxFold init l).2 := by
  induction l with
  | nil => intro init h; exact h
  | cons v t ih =>
    intro init h
    exact ih (min init.1 v, max init.2 v)
      (le_trans (min_le_right _ _) (le_max_right _ _))

theorem minMaxFold_le {α : Type} [LinearOrder α] (init : α × α) (l : List α)
    (h : l ≠ []) : (minMaxFold init l).1 ≤ (minMaxFold init l).2 := by
  match l with
  | [] => exact absurd rfl h
  | v :: t =>
    show (minMaxFold (min init.1 v, max init.2 v) t).1 ≤ _
    exact minMaxFold_invariant t _
      (le_trans (min_le_right _ _) (le_max_right _ _))

theorem minMaxFold_mem_fst {α : Type} [LinearOrder α] (l : List α) :
    ∀ init : α × α, (minMaxFold init l).1 ∈ init.1 :: l := by
  induction l with
  | nil => intro init; simp [minMaxFold]
  | cons v t ih =>
    intro init
    have := ih (min init.1 v, max init.2 v)
    rcases min_choice init.1 v with h | h <;>
      · show (minMaxFold (min init.1 v, max init.2 v) t).1 ∈ _
        rw [h] at this ⊢
        simp at this ⊢
        tauto

theorem minMaxFold_mem_snd {α : Type} [LinearOrder α] (l : List α) :
    ∀ init : α × α, (minMaxFold init l).2 ∈ init.2 :: l := by
  induction l with
  | nil => intro init; simp [minMaxFold]
  | cons v t ih =>
    intro init
    have := ih (min init.1 v, max init.2 v)
    rcases max_choice init.2 v with h | h <;>
      · show (minMaxFold (min init.1 v, max init.2 v) t).2 ∈ _
        rw [h] at this ⊢
        simp at this ⊢
        tauto

/-! ### Helper lemmas: min/max fold bounds -/

theorem minMaxFold_fst_le_init {α : Type} [LinearOrder α] (l : List α) :
    ∀ init : α × α, (minMaxFold init l).1 ≤ init.1 := by
  induction l with
  | nil => intro init; exact le_refl _
  | cons v t ih =>
    intro init
    exact le_trans (ih (min init.1 v, max init.2 v)) (min_le_left _ _)

theorem minMaxFold_fst_le_mem {α : Type} [LinearOrder α] (l : List α) :
    ∀ init : α × α, ∀ x ∈ l, (minMaxFold init l).1 ≤ x := by
  induction l with
  | nil => intro init x hx; simp at hx
  | cons v t ih =>
    intro init x hx
    rcases List.mem_cons.mp hx with h | h
    · subst h
      exact le_trans (minMaxFold_fst_le_init t _) (min_le_right _ _)
    · exact ih _ x h

theorem minMaxFold_snd_ge_init {α : Type} [LinearOrder α] (l : List α) :
    ∀ init : α × α, init.2 ≤ (minMaxFold init l).2 := by
  induction l with
  | nil => intro init; exact le_refl _
  | cons v t ih =>
    intro init
    exact le_trans (le_max_left _ _) (ih (min init.1 v, max init.2 v))

theorem minMaxFold_snd_ge_mem {α : Type} [LinearOrder α] (l : List α) :
    ∀ init : α × α, ∀ x ∈ l, x ≤ (minMaxFold init l).2 := by
  induction l with
  | nil => intro init x hx; simp at hx
  | cons v t ih =>
    intro init x hx
    rcases List.mem_cons.mp hx with h | h
    · subst h
      show x ≤ (minMaxFold (min init.1 x, max init.2 x) t).2
      have h2 := minMaxFold_snd_ge_init t (min init.1 x, max init.2 x)
      exact le_trans (le_max_right _ _) h2
    · exact ih _ x h

/-! ### Helper lemmas: the floating-point stats fold -/

theorem f64min_posInf {x : FVal} (hx : x.isNan = false) :
    f64min (.inf false) x = x := by
  rcases x with _ | (_ | _) | q <;> simp_all [f64min, FVal.isNan, FVal.leb]

theorem f64max_negInf {x : FVal} (hx : x.isNan = false) :
    f64max (.inf true) x = x := by
  rcases x with _ | (_ | _) | q <;> simp_all [f64max, FVal.isNan, FVal.leb]

theorem f64min_fin (a b : ℚ) : f64min (.fin a) (.fin b) = .fin (min a b) := by
  simp only [f64min, FVal.isNan, FVal.leb, Bool.false_eq_true, if_false,
    decide_eq_true_eq]
  split
  · rw [min_eq_left (by assumption)]
  · rw [min_eq_right (le_of_not_le (by assumption))]

theorem f64max_fin (a b : ℚ) : f64max (.fin a) (.fin b) = .fin (max a b) := by
  simp only [f64max, FVal.isNan, FVal.leb, Bool.false_eq_true, if_false,
    decide_eq_true_eq]
  split
  · rw [max_eq_right (by assumption)]
  · rw [max_eq_left (le_of_not_le (by assumption))]

/-- The exact values of the data elements passing the guard `p`, in order
(for the float reducers: the values of the finite, non-NaN samples). -/
def finVals (p : Nat → Bool) (g : Nat → ℚ) (l : List Nat) : List ℚ :=
  l.filterMap (fun v => if p v then some (g v) else none)

theorem statFold_eq_filtered (p : Nat → Bool) (g : Nat → ℚ) (l : List Nat) :
    ∀ acc : FVal × FVal,
      l.foldl
        (fun acc v =>
          if p v then (f64min acc.1 (.fin (g v)), f64max acc.2 (.fin (g v)))
          else acc) acc =
      (finVals p g l).foldl
        (fun acc q => (f64min acc.1 (.fin q), f64max acc.2 (.fin q))) acc := by
  induction l with
  | nil => intro acc; rfl
  | cons v t ih =>
    intro acc
    by_cases hp : p v
    · simp only [List.foldl_cons, finVals, List.filterMap_cons, hp, if_pos]
      exact ih _
    · simp only [List.foldl_cons, finVals, List.filterMap_cons, hp, if_neg,
        Bool.false_eq_true, if_false]
      exact ih acc

theorem qfold_fin (t : List ℚ) :
    ∀ a b : ℚ,
      t.foldl (fun acc q => (f64min acc.1 (.fin q), f64max acc.2 (.fin q)))
        (.fin a, .fin b) =
      (.fin (minMaxFold (a, b) t).1, .fin (minMaxFold (a, b) t).2) := by
  induction t with
  | nil => intro a b; rfl
  | cons q t ih =>
    intro a b
    simp only [List.foldl_cons, f64min_fin, f64max_fin]
    exact ih (min a q) (max b q)

theorem statFold_empty (p : Nat → Bool) (g : Nat → ℚ) (l : List Nat)
    (h : finVals p g l = []) : statFold p g l = (.inf false, .inf true) := by
  rw [statFold, statFold_eq_filtered, h]
  rfl

theorem statFold_spec (p : Nat → Bool) (g : Nat → ℚ) (l : List Nat)
    (h : finVals p g l ≠ []) :
    ∃ a b : ℚ, statFold p g l = (.fin a, .fin b) ∧ a ∈ finVals p g l ∧
      b ∈ finVals p g l ∧ ∀ q ∈ finVals p g l, a ≤ q ∧ q ≤ b := by
  rw [statFold, statFold_eq_filtered]
  match hv : finVals p g l with
  | [] => exact absurd hv h
  | q :: t =>
    simp only [List.foldl_cons]
    have h1 : f64min (FVal.inf false) (.fin q) = .fin q := f64min_posInf rfl
    have h2 : f64max (FVal.inf true) (.fin q) = .fin q := f64max_negInf rfl
    rw [h1, h2, qfold_fin]
    refine ⟨_, _, rfl, ?_, ?_, ?_⟩
    · have := minMaxFold_mem_fst t ((q : ℚ), (q : ℚ))
      simpa using this
    · have := minMaxFold_mem_snd t ((q : ℚ), (q : ℚ))
      simpa using this
    · intro x hx
      rcases List.mem_cons.mp hx with hh | hh
      · subst hh
        exact ⟨minMaxFold_fst_le_init t _, minMaxFold_snd_ge_init t _⟩
      · exact ⟨minMaxFold_fst_le_mem t _ x hh, minMaxFold_snd_ge_mem t _ x hh⟩

/-! ### Helper lemmas: monotonicity of the integer-to-double casts -/

theorem natLog2_mono_of_le {a b : Nat} (ha : 1 ≤ a) (h : a ≤ b)
    (hb : b < 2 ^ 4200) : natLog2 a ≤ natLog2 b := by
  by_contra hlt
  push_neg at hlt
  have h1 : 2 ^ natLog2 a ≤ a := natLog2_le ha (by omega)
  have h2 : b < 2 ^ (natLog2 b + 1) := natLog2_lt (by omega) hb
  have h3 : 2 ^ (natLog2 b + 1) ≤ 2 ^ natLog2 a :=
    Nat.pow_le_pow_right (by norm_num) (by omega)
  omega

theorem natLog2_ge_of_ge {b n : Nat} (h : 2 ^ n ≤ b) (hb : b < 2 ^ 4200) :
    n ≤ natLog2 b := by
  have h1 : 1 ≤ b := le_trans (Nat.one_le_two_pow) h
  have h2 : b < 2 ^ (natLog2 b + 1) := natLog2_lt h1 hb
  by_contra hlt
  push_neg at hlt
  have : 2 ^ (natLog2 b + 1) ≤ 2 ^ n := Nat.pow_le_pow_right (by norm_num) (by omega)
  omega

theorem rnd53_mono {a b : Nat} (h : a ≤ b) (hb : b < 2 ^ 64) :
    rnd53 a ≤ rnd53 b := by
  by_cases hb53 : b < 2 ^ 53
  · rw [rnd53, rnd53, if_pos (by omega), if_pos hb53]
    exact h
  · have hbig : b < 2 ^ 4200 := by
      have : (2 : Nat) ^ 64 ≤ 2 ^ 4200 := Nat.pow_le_pow_right (by norm_num) (by norm_num)
      omega
    have hLb : 53 ≤ natLog2 b := natLog2_ge_of_ge (by omega) hbig
    have hLb' : natLog2 b ≤ 63 := by
      by_contra hc
      push_neg at hc
      have h1 : 2 ^ natLog2 b ≤ b := natLog2_le (by omega) hbig
      have h2 : (2:Nat) ^ 64 ≤ 2 ^ natLog2 b := Nat.pow_le_pow_right (by norm_num) (by omega)
      omega
    have hrb : 2 ^ natLog2 b ≤ rnd53 b := by
      rw [rnd53, if_neg (by omega)]
      have hdiv : 2 ^ (natLog2 b - (natLog2 b - 52)) ≤ b / 2 ^ (natLog2 b - 52) := by
        rw [← Nat.pow_div (by omega) (by norm_num)]
        exact Nat.div_le_div_right (natLog2_le (by omega) hbig)
      have h52 : natLog2 b - (natLog2 b - 52) = 52 := by omega
      rw [h52] at hdiv
      calc 2 ^ natLog2 b = 2 ^ 52 * 2 ^ (natLog2 b - 52) := by
            rw [← pow_add]
            congr 1
            omega
        _ ≤ b / 2 ^ (natLog2 b - 52) * 2 ^ (natLog2 b - 52) := by
            have := natRoundSig_ge b (natLog2 b - 52)
            exact Nat.mul_le_mul_right _ hdiv
        _ ≤ natRoundSig b (natLog2 b - 52) * 2 ^ (natLog2 b - 52) :=
            Nat.mul_le_mul_right _ (natRoundSig_ge b _)
    by_cases ha53 : a < 2 ^ 53
    · rw [rnd53, if_pos ha53]
      have : (2:Nat) ^ 53 ≤ 2 ^ natLog2 b := Nat.pow_le_pow_right (by norm_num) hLb
      omega
    · -- both are ≥ 2^53
      have hbig_a : a < 2 ^ 4200 := by omega
      have hLa : 53 ≤ natLog2 a := natLog2_ge_of_ge (by omega) hbig_a
      have hLab : natLog2 a ≤ natLog2 b := natLog2_mono_of_le (by omega) h hbig
      rcases Nat.eq_or_lt_of_le hLab with heq | hlt
      · rw [rnd53, rnd53, if_neg (by omega), if_neg (by omega), heq]
        exact Nat.mul_le_mul_right _ (natRoundSig_mono _ h)
      · -- strictly smaller exponent: rnd53 a ≤ 2^(La+1) ≤ 2^Lb ≤ rnd53 b
        rw [rnd53, if_neg (by omega)]
        have hka : a / 2 ^ (natLog2 a - 52) < 2 ^ 53 := by
          rw [Nat.div_lt_iff_lt_mul (Nat.pos_pow_of_pos _ (by norm_num))]
          calc a < 2 ^ (natLog2 a + 1) := natLog2_lt (by omega) hbig_a
            _ = 2 ^ 53 * 2 ^ (natLog2 a - 52) := by
                rw [← pow_add]
                congr 1
                omega
        have hra : natRoundSig a (natLog2 a - 52) ≤ 2 ^ 53 := by
          have := natRoundSig_le a (natLog2 a - 52)
          omega
        calc natRoundSig a (natLog2 a - 52) * 2 ^ (natLog2 a - 52)
            ≤ 2 ^ 53 * 2 ^ (natLog2 a - 52) := Nat.mul_le_mul_right _ hra
          _ = 2 ^ (natLog2 a + 1) := by
              rw [← pow_add]
              congr 1
              omega
          _ ≤ 2 ^ natLog2 b := Nat.pow_le_pow_right (by norm_num) (by omega)
          _ ≤ rnd53 b := hrb

theorem castU64F64_leb {a b : Nat} (h : a ≤ b) (hb : b < 2 ^ 64) :
    FVal.leb (castU64F64 a) (castU64F64 b) = true := by
  simp only [castU64F64, FVal.leb, Rat.mkRat_one, decide_eq_true_eq]
  exact_mod_cast rnd53_mono h hb

theorem castI64F64_leb {a b : Int} (h : a ≤ b) (ha : -2 ^ 63 ≤ a)
    (hb : b ≤ 2 ^ 63) : FVal.leb (castI64F64 a) (castI64F64 b) = true := by
  simp only [castI64F64, FVal.leb, Rat.mkRat_one, decide_eq_true_eq]
  by_cases hal : a < 0
  · by_cases hbl : b < 0
    · rw [if_pos hal, if_pos hbl, Int.cast_le]
      have hmag : b.natAbs ≤ a.natAbs := by omega
      have hbound : a.natAbs < 2 ^ 64 := by omega
      have := rnd53_mono hmag hbound
      omega
    · rw [if_pos hal, if_neg hbl, Int.cast_le]
      omega
  · rw [if_neg hal, if_neg (by omega), Int.cast_le]
    have hmag : a.natAbs ≤ b.natAbs := by omega
    have hbound : b.natAbs < 2 ^ 64 := by omega
    have := rnd53_mono hmag hbound
    omega

/-! ### Helper lemmas: the F16 branch loop -/

theorem FVal.ltb_nan_left {a b : FVal} (h : a.isNan = true) :
    FVal.ltb a b = false := by
  rcases a with _ | s | q <;> simp_all [FVal.isNan, FVal.ltb, FVal.leb]

theorem FVal.ltb_nan_right {a b : FVal} (h : b.isNan = true) :
    FVal.ltb a b = false := by
  rcases b with _ | s | q <;> rcases a with _ | s' | q' <;>
    simp_all [FVal.isNan, FVal.ltb, FVal.leb]

/-- The running minimum of the F16 loop, separated from the byte
accumulation. -/
def f16MinRun (mn : Nat) (l : List Nat) : Nat :=
  l.foldl
    (fun mn h =>
      if FVal.ltb (val32sem (f16_to_f32 h)) (val32sem mn) then f16_to_f32 h else mn)
    mn

/-- The running maximum of the F16 loop, separated from the byte
accumulation. -/
def f16MaxRun (mx : Nat) (l : List Nat) : Nat :=
  l.foldl
    (fun mx h =>
      if FVal.ltb (val32sem mx) (val32sem (f16_to_f32 h)) then f16_to_f32 h else mx)
    mx

theorem f16fold_components (l : List Nat) :
    ∀ acc : List Nat × Nat × Nat,
      l.foldl f16Step acc =
        (acc.1 ++ l.flatMap (fun h => u32_le (f16_to_f32 h)),
         f16MinRun acc.2.1 l, f16MaxRun acc.2.2 l) := by
  induction l with
  | nil => intro acc; simp [f16MinRun, f16MaxRun]
  | cons v t ih =>
    intro acc
    show t.foldl f16Step (f16Step acc v) = _
    rw [ih (f16Step acc v)]
    simp only [f16Step, List.flatMap_cons, f16MinRun, f16MaxRun, List.foldl_cons,
      List.append_assoc]

theorem f16MinRun_spec (l : List Nat) :
    ∀ mn : Nat, (val32sem mn).isNan = false →
      (val32sem (f16MinRun mn l)).isNan = false ∧
      FVal.leb (val32sem (f16MinRun mn l)) (val32sem mn) = true ∧
      (∀ x ∈ l, (val32sem (f16_to_f32 x)).isNan = false →
        FVal.leb (val32sem (f16MinRun mn l)) (val32sem (f16_to_f32 x)) = true) ∧
      f16MinRun mn l ∈ mn :: l.map f16_to_f32 := by
  induction l with
  | nil =>
    intro mn hmn
    refine ⟨hmn, FVal.leb_refl hmn, ?_, by simp [f16MinRun]⟩
    intro x hx
    simp at hx
  | cons v t ih =>
    intro mn hmn
    have hstep : f16MinRun mn (v :: t) =
        f16MinRun
          (if FVal.ltb (val32sem (f16_to_f32 v)) (val32sem mn) then f16_to_f32 v
           else mn) t := rfl
    by_cases hc : FVal.ltb (val32sem (f16_to_f32 v)) (val32sem mn) = true
    · have hmn' : (val32sem (f16_to_f32 v)).isNan = false :=
        FVal.leb_nonnan_left (FVal.ltb_leb hc)
      obtain ⟨ih1, ih2, ih3, ih4⟩ := ih (f16_to_f32 v) hmn'
      rw [hstep, if_pos hc]
      refine ⟨ih1, ?_, ?_, ?_⟩
      · exact FVal.leb_trans ih2 (FVal.ltb_leb hc)
      · intro x hx hxn
        rcases List.mem_cons.mp hx with hh | hh
        · subst hh
          exact ih2
        · exact ih3 x hh hxn
      · rcases List.mem_cons.mp ih4 with hh | hh
        · rw [hh]
          simp
        · simp only [List.map_cons, List.mem_cons]
          tauto
    · have hc' : FVal.ltb (val32sem (f16_to_f32 v)) (val32sem mn) = false := by
        simpa using hc
      obtain ⟨ih1, ih2, ih3, ih4⟩ := ih mn hmn
      rw [hstep, if_neg (by simp [hc'])]
      refine ⟨ih1, ih2, ?_, ?_⟩
      · intro x hx hxn
        rcases List.mem_cons.mp hx with hh | hh
        · subst hh
          have hge : FVal.leb (val32sem mn) (val32sem (f16_to_f32 x)) = true :=
            FVal.not_ltb_leb hxn hmn hc'
          exact FVal.leb_trans ih2 hge
        · exact ih3 x hh hxn
      · rcases List.mem_cons.mp ih4 with hh | hh
        · rw [hh]
          simp
        · simp only [List.map_cons, List.mem_cons]
          tauto

theorem f16MaxRun_spec (l : List Nat) :
    ∀ mx : Nat, (val32sem mx).isNan = false →
      (val32sem (f16MaxRun mx l)).isNan = false ∧
      FVal.leb (val32sem mx) (val32sem (f16MaxRun mx l)) = true ∧
      (∀ x ∈ l, (val32sem (f16_to_f32 x)).isNan = false →
        FVal.leb (val32sem (f16_to_f32 x)) (val32sem (f16MaxRun mx l)) = true) ∧
      f16MaxRun mx l ∈ mx :: l.map f16_to_f32 := by
  induction l with
  | nil =>
    intro mx hmx
    refine ⟨hmx, FVal.leb_refl hmx, ?_, by simp [f16MaxRun]⟩
    intro x hx
    simp at hx
  | cons v t ih =>
    intro mx hmx
    have hstep : f16MaxRun mx (v :: t) =
        f16MaxRun
          (if FVal.ltb (val32sem mx) (val32sem (f16_to_f32 v)) then f16_to_f32 v
           else mx) t := rfl
    by_cases hc : FVal.ltb (val32sem mx) (val32sem (f16_to_f32 v)) = true
    · have hmx' : (val32sem (f16_to_f32 v)).isNan = false :=
        FVal.leb_nonnan_right (FVal.ltb_leb hc)
      obtain ⟨ih1, ih2, ih3, ih4⟩ := ih (f16_to_f32 v) hmx'
      rw [hstep, if_pos hc]
      refine ⟨ih1, ?_, ?_, ?_⟩
      · exact FVal.leb_trans (FVal.ltb_leb hc) ih2
      · intro x hx hxn
        rcases List.mem_cons.mp hx with hh | hh
        · subst hh
          exact ih2
        · exact ih3 x hh hxn
      · rcases List.mem_cons.mp ih4 with hh | hh
        · rw [hh]
          simp
        · simp only [List.map_cons, List.mem_cons]
          tauto
    · have hc' : FVal.ltb (val32sem mx) (val32sem (f16_to_f32 v)) = false := by
        simpa using hc
      obtain ⟨ih1, ih2, ih3, ih4⟩ := ih mx hmx
      rw [hstep, if_neg (by simp [hc'])]
      refine ⟨ih1, ih2, ?_, ?_⟩
      · intro x hx hxn
        rcases List.mem_cons.mp hx with hh | hh
        · subst hh
          have hge : FVal.leb (val32sem (f16_to_f32 x)) (val32sem mx) = true :=
            FVal.not_ltb_leb hmx hxn hc'
          exact FVal.leb_trans hge ih2
        · exact ih3 x hh hxn
      · rcases List.mem_cons.mp ih4 with hh | hh
        · rw [hh]
          simp
        · simp only [List.map_cons, List.mem_cons]
          tauto

theorem f16MinRun_all_nan (l : List Nat) :
    ∀ mn : Nat, (∀ x ∈ l, (val32sem (f16_to_f32 x)).isNan = true) →
      f16MinRun mn l = mn := by
  induction l with
  | nil => intro mn _; rfl
  | cons v t ih =>
    intro mn hall
    have h1 : FVal.ltb (val32sem (f16_to_f32 v)) (val32sem mn) = false :=
      FVal.ltb_nan_left (hall v (by simp))
    show f16MinRun (if FVal.ltb (val32sem (f16_to_f32 v)) (val32sem mn) then _ else mn) t = mn
    rw [if_neg (by simp [h1])]
    exact ih mn (fun x hx => hall x (by simp [hx]))

theorem f16MaxRun_all_nan (l : List Nat) :
    ∀ mx : Nat, (∀ x ∈ l, (val32sem (f16_to_f32 x)).isNan = true) →
      f16MaxRun mx l = mx := by
  induction l with
  | nil => intro mx _; rfl
  | cons v t ih =>
    intro mx hall
    have h1 : FVal.ltb (val32sem mx) (val32sem (f16_to_f32 v)) = false :=
      FVal.ltb_nan_right (hall v (by simp))
    show f16MaxRun (if FVal.ltb (val32sem mx) (val32sem (f16_to_f32 v)) then _ else mx) t = mx
    rw [if_neg (by simp [h1])]
    exact ih mx (fun x hx => hall x (by simp [hx]))

/-! ### Helper lemmas: the rounded `f32` is never NaN (absent overflow) -/

theorem val32sem_not_nan_of_exp {b : Nat} (h : f32_exp b ≠ 255) :
    (val32sem b).isNan = false := by
  unfold val32sem
  rw [if_neg h]
  rfl

theorem f32_exp_build (s e fr : Nat) (hs : s = 0 ∨ s = 2 ^ 31) (he : e < 256)
    (hf : fr < 2 ^ 23) : f32_exp (s + e * 2 ^ 23 + fr) = e := by
  unfold f32_exp
  rcases hs with h | h <;> subst h <;> omega

theorem natLog2_lt_of_lt {M n : Nat} (h : M < 2 ^ n) (hn : n ≤ 4200)
    (h1 : 1 ≤ M) : natLog2 M < n := by
  have hb : M < 2 ^ 4200 := by
    have : (2:Nat) ^ n ≤ 2 ^ 4200 := Nat.pow_le_pow_right (by norm_num) hn
    omega
  have h2 : 2 ^ natLog2 M ≤ M := natLog2_le h1 hb
  by_contra hc
  push_neg at hc
  have : (2:Nat) ^ n ≤ 2 ^ natLog2 M := Nat.pow_le_pow_right (by norm_num) hc
  omega

theorem natLog2_zero : natLog2 0 = 0 := rfl

theorem roundToF32_exp_ne (neg : Bool) (M : Nat) (E : Int)
    (hM : M < 2 ^ 4200) (ht : E + (natLog2 M : Int) < 127) :
    f32_exp (roundToF32 neg M E) ≠ 255 := by
  unfold roundToF32
  by_cases hM0 : M = 0
  · rw [if_pos hM0]
    cases neg <;> simp [f32_exp]
  · rw [if_neg hM0]
    have hM1 : 1 ≤ M := by omega
    set L := natLog2 M with hL
    have hMlt : M < 2 ^ (L + 1) := natLog2_lt hM1 hM
    have hMge : 2 ^ L ≤ M := natLog2_le hM1 hM
    by_cases hts : -126 ≤ E + (L : Int)
    · rw [if_pos hts]
      have hm24 : (if L ≤ 23 then M * 2 ^ (23 - L) else natRoundSig M (L - 23)) ≤ 2 ^ 24 := by
        by_cases hL23 : L ≤ 23
        · rw [if_pos hL23]
          apply le_of_lt
          calc M * 2 ^ (23 - L) < 2 ^ (L + 1) * 2 ^ (23 - L) :=
                mul_lt_mul_of_pos_right hMlt (Nat.pos_pow_of_pos _ (by norm_num))
            _ = 2 ^ 24 := by
                rw [← pow_add]
                congr 1
                omega
        · rw [if_neg hL23]
          have hq : M / 2 ^ (L - 23) < 2 ^ 24 := by
            rw [Nat.div_lt_iff_lt_mul (Nat.pos_pow_of_pos _ (by norm_num))]
            calc M < 2 ^ (L + 1) := hMlt
              _ = 2 ^ 24 * 2 ^ (L - 23) := by
                  rw [← pow_add]
                  congr 1
                  omega
          have := natRoundSig_le M (L - 23)
          omega
      by_cases he : (if L ≤ 23 then M * 2 ^ (23 - L) else natRoundSig M (L - 23)) = 2 ^ 24
      · rw [if_pos he, if_neg (by omega)]
        have h254 : (E + (L : Int) + 1 + 127).toNat < 256 := by omega
        have := f32_exp_build (if neg then 2 ^ 31 else 0)
          (E + (L : Int) + 1 + 127).toNat 0
          (by cases neg <;> simp) h254 (by norm_num)
        rw [Nat.add_zero] at this
        rw [this]
        omega
      · rw [if_neg he, if_neg (by omega)]
        have h254 : (E + (L : Int) + 127).toNat < 256 := by omega
        have hfr : (if L ≤ 23 then M * 2 ^ (23 - L) else natRoundSig M (L - 23)) - 2 ^ 23
            < 2 ^ 23 := by omega
        have := f32_exp_build (if neg then 2 ^ 31 else 0) (E + (L : Int) + 127).toNat
          ((if L ≤ 23 then M * 2 ^ (23 - L) else natRoundSig M (L - 23)) - 2 ^ 23)
          (by cases neg <;> simp) h254 hfr
        rw [this]
        omega
    · rw [if_neg hts]
      -- subnormal/underflow: the accumulated integer is at most 2^23
      have hLE : (L : Int) + E ≤ -127 := by omega
      have hm : (if 0 ≤ E + 149 then M * 2 ^ (E + 149).toNat
          else natRoundSig M (-(E + 149)).toNat) ≤ 2 ^ 23 := by
        by_cases hsh : 0 ≤ E + 149
        · rw [if_pos hsh]
          have hexp : L + 1 + (E + 149).toNat ≤ 23 := by omega
          apply le_of_lt
          calc M * 2 ^ (E + 149).toNat < 2 ^ (L + 1) * 2 ^ (E + 149).toNat :=
                mul_lt_mul_of_pos_right hMlt (Nat.pos_pow_of_pos _ (by norm_num))
            _ = 2 ^ (L + 1 + (E + 149).toNat) := by rw [← pow_add]
            _ ≤ 2 ^ 23 := Nat.pow_le_pow_right (by norm_num) hexp
        · rw [if_neg hsh]
          have hq : M / 2 ^ (-(E + 149)).toNat < 2 ^ 23 := by
            rw [Nat.div_lt_iff_lt_mul (Nat.pos_pow_of_pos _ (by norm_num))]
            calc M < 2 ^ (L + 1) := hMlt
              _ ≤ 2 ^ (23 + (-(E + 149)).toNat) :=
                  Nat.pow_le_pow_right (by norm_num) (by omega)
              _ = 2 ^ 23 * 2 ^ (-(E + 149)).toNat := by rw [← pow_add]
          have := natRoundSig_le M (-(E + 149)).toNat
          omega
      have hsplit : (if neg then 2 ^ 31 else 0 : Nat) = 0 ∨
          (if neg then 2 ^ 31 else 0 : Nat) = 2 ^ 31 := by cases neg <;> simp
      unfold f32_exp
      dsimp only
      rcases hsplit with h | h <;> rw [h] <;> omega

theorem roundToF32_not_nan (neg : Bool) (M : Nat) (E : Int)
    (hM : M < 2 ^ 4200) (ht : E + (natLog2 M : Int) < 127) :
    (val32sem (roundToF32 neg M E)).isNan = false :=
  val32sem_not_nan_of_exp (roundToF32_exp_ne neg M E hM ht)

theorem f16_to_f32_finite_not_nan {h : Nat} (hf : f16_exp h ≠ 31) :
    (val32sem (f16_to_f32 h)).isNan = false := by
  unfold f16_to_f32
  rw [if_neg hf]
  have hfr : f16_frac h < 2 ^ 10 := Nat.mod_lt _ (by norm_num)
  have hexp : f16_exp h < 2 ^ 5 := Nat.mod_lt _ (by norm_num)
  set M := if f16_exp h = 0 then f16_frac h
    else (2 ^ 10 + f16_frac h) * 2 ^ (f16_exp h - 1) with hMdef
  have hMb : M < 2 ^ 42 := by
    rw [hMdef]
    by_cases h0 : f16_exp h = 0
    · rw [if_pos h0]
      calc f16_frac h < 2 ^ 10 := hfr
        _ ≤ 2 ^ 42 := by norm_num
    · rw [if_neg h0]
      have h1 : 2 ^ 10 + f16_frac h ≤ 2 ^ 11 := by omega
      have h2 : 2 ^ (f16_exp h - 1) ≤ 2 ^ 30 :=
        Nat.pow_le_pow_right (by norm_num) (by omega)
      calc (2 ^ 10 + f16_frac h) * 2 ^ (f16_exp h - 1)
          ≤ 2 ^ 11 * 2 ^ 30 := Nat.mul_le_mul h1 h2
        _ < 2 ^ 42 := by norm_num
  apply roundToF32_not_nan
  · have : (2:Nat) ^ 42 ≤ 2 ^ 4200 := Nat.pow_le_pow_right (by norm_num) (by norm_num)
    omega
  · by_cases hMz : M = 0
    · rw [hMz]
      show -24 + ((natLog2 0 : Nat) : Int) < 127
      rw [natLog2_zero]
      norm_num
    · have : natLog2 M < 42 := natLog2_lt_of_lt hMb (by norm_num) (by omega)
      omega

/-! ### Spec-side definitions (the §4.2 dispatch table, stated from the spec) -/

/-- §4.2 table: the sample-format tag of each SampleKind (1 = unsigned
integer, 2 = signed integer, 3 = floating point). -/
def sampleFormatTag : DecodingResult → Nat
  | .U8 _ | .U16 _ | .U32 _ | .U64 _ => 1
  | .I8 _ | .I16 _ | .I32 _ | .I64 _ => 2
  | .F32 _ | .F64 _ | .F16 _ => 3

/-- §4.2 table: the canonical element byte width of each SampleKind
(native width for integers, always 4 for the three floating kinds). -/
def elemWidth : DecodingResult → Nat
  | .U8 _ | .I8 _ => 1
  | .U16 _ | .I16 _ => 2
  | .U32 _ | .I32 _ => 4
  | .U64 _ | .I64 _ => 8
  | .F32 _ | .F64 _ | .F16 _ => 4

/-- Number of elements in the decoded raster. -/
def elemCount : DecodingResult → Nat
  | .U8 d | .U16 d | .U32 d | .U64 d => d.length
  | .I8 d | .I16 d | .I32 d | .I64 d => d.length
  | .F32 d | .F64 d | .F16 d => d.length

/-- §4.2 table: the per-element byte transform, producing the unsigned
integer whose little-endian bytes are stored (identity for unsigned,
two's-complement reinterpretation for signed, the `f32` bit pattern for
floats — with `f64` narrowed and `f16` widened). -/
def transformedElems : DecodingResult → List Nat
  | .U8 d | .U16 d | .U32 d | .U64 d => d
  | .I8 d => d.map (toUnsigned 8)
  | .I16 d => d.map (toUnsigned 16)
  | .I32 d => d.map (toUnsigned 32)
  | .I64 d => d.map (toUnsigned 64)
  | .F32 d => d
  | .F64 d => d.map f64_to_f32
  | .F16 d => d.map f16_to_f32

/-- Little-endian byte decomposition: byte `j` of the `w`-byte encoding of
`v` is `v / 256^j % 256`. -/
def leBytes (w v : Nat) : List Nat := (List.range w).map (fun j => v / 2 ^ (8 * j) % 2 ^ 8)

/-- Well-formedness of a decoding result: every sample is within its
machine type's range (automatic in the Rust source, where the payloads are
`Vec<u8>`, `Vec<i16>`, ...). -/
def DecodingResult.wf : DecodingResult → Prop
  | .U8 d => ∀ v ∈ d, v < 2 ^ 8
  | .U16 d => ∀ v ∈ d, v < 2 ^ 16
  | .U32 d => ∀ v ∈ d, v < 2 ^ 32
  | .U64 d => ∀ v ∈ d, v < 2 ^ 64
  | .I8 d => ∀ v ∈ d, -2 ^ 7 ≤ v ∧ v < 2 ^ 7
  | .I16 d => ∀ v ∈ d, -2 ^ 15 ≤ v ∧ v < 2 ^ 15
  | .I32 d => ∀ v ∈ d, -2 ^ 31 ≤ v ∧ v < 2 ^ 31
  | .I64 d => ∀ v ∈ d, -2 ^ 63 ≤ v ∧ v < 2 ^ 63
  | .F32 d => ∀ v ∈ d, v < 2 ^ 32
  | .F64 d => ∀ v ∈ d, v < 2 ^ 64
  | .F16 d => ∀ v ∈ d, v < 2 ^ 16

instance : ∀ dr : DecodingResult, Decidable dr.wf := by
  intro dr
  cases dr <;> · rw [DecodingResult.wf]; infer_instance

/-- Whether the raster contains at least one finite sample (every integer
sample is finite; a float sample is finite when its exponent field is not
all-ones). -/
def hasFiniteSample : DecodingResult → Prop
  | .U8 d | .U16 d | .U32 d | .U64 d => d ≠ []
  | .I8 d | .I16 d | .I32 d | .I64 d => d ≠ []
  | .F32 d => ∃ v ∈ d, f32_is_finite v = true
  | .F64 d => ∃ v ∈ d, f64_is_finite v = true
  | .F16 d => ∃ v ∈ d, f16_exp v ≠ 31

instance : ∀ dr : DecodingResult, Decidable (hasFiniteSample dr) := by
  intro dr
  cases dr <;> · rw [hasFiniteSample]; infer_instance

/-! ### LE encoders agree with the byte decomposition -/

theorem leBytes_one (v : Nat) : leBytes 1 v = [v % 2 ^ 8] := by
  simp [leBytes, List.range_succ]

theorem leBytes_two (v : Nat) : leBytes 2 v = [v % 2 ^ 8, v / 2 ^ 8 % 2 ^ 8] := by
  simp [leBytes, List.range_succ]

theorem u16_le_eq_leBytes (v : Nat) : u16_le v = leBytes 2 v := by
  rw [leBytes_two, u16_le]

theorem u32_le_eq_leBytes (v : Nat) : u32_le v = leBytes 4 v := by
  simp [leBytes, List.range_succ, u32_le]

theorem u64_le_eq_leBytes (v : Nat) : u64_le v = leBytes 8 v := by
  simp [leBytes, List.range_succ, u64_le]

theorem singleton_eq_leBytes {v : Nat} (h : v < 2 ^ 8) : [v] = leBytes 1 v := by
  rw [leBytes_one, Nat.mod_eq_of_lt h]

theorem toUnsigned_lt (w : Nat) (v : Int) : toUnsigned w v < 2 ^ w := by
  unfold toUnsigned
  have hp : (0:Int) < ((2 ^ w : Nat) : Int) := by
    have := Nat.pos_pow_of_pos w (show 0 < 2 by norm_num)
    omega
  have h1 := Int.emod_lt_of_pos v hp
  have h0 := Int.emod_nonneg v (ne_of_gt hp)
  omega

theorem u16_le_length (v : Nat) : (u16_le v).length = 2 := rfl
theorem u32_le_length (v : Nat) : (u32_le v).length = 4 := rfl
theorem u64_le_length (v : Nat) : (u64_le v).length = 8 := rfl

theorem chunks_flatMap_enc {α : Type} {w : Nat} (hw : 0 < w) (g : α → Nat)
    (enc : Nat → List Nat) (hlen : ∀ x : Nat, (enc x).length = w) (d : List α) :
    chunksExact w (d.flatMap (fun v => enc (g v))) = (d.map g).map enc := by
  rw [chunksExact_flatMap hw _ d (fun x _ => hlen (g x)), List.map_map]
  rfl

/-! ### Claim theorems -/

/-- **C1**: For every decoded raster of each of the eleven SampleKind
variants (samples within their machine-type range), the Canonical Encoder
produces exactly the sample-format tag and element byte width of the §4.2
table (unsigned kinds tag 1 at native width, signed kinds tag 2 at native
width with signed 8-bit reinterpreted as unsigned bytes, all three
floating kinds tag 3 at 4 bytes), encodes each element little-endian
(splitting the byte buffer into width-sized chunks recovers exactly the
little-endian byte decomposition of each transformed element), and the
byte buffer has length `elementCount * elementWidth` with no padding. -/
theorem C1_canonical_encoder_table (dr : DecodingResult) (hwf : dr.wf) :
    (processResult dr).2.1 = sampleFormatTag dr ∧
    (processResult dr).1.length = elemCount dr * elemWidth dr ∧
    chunksExact (elemWidth dr) (processResult dr).1 =
      (transformedElems dr).map (leBytes (elemWidth dr)) := by
  cases dr with
  | U8 d =>
    refine ⟨rfl, ?_, ?_⟩
    · show d.length = d.length * 1
      omega
    · show chunksExact 1 d = d.map (leBytes 1)
      have hfm : d.flatMap (fun v => [v]) = d := by simp
      conv_lhs => rw [← hfm]
      rw [@chunksExact_flatMap Nat 1 (by norm_num) (fun v => [v]) d (fun x _ => rfl)]
      exact List.map_congr_left (fun v hv => singleton_eq_leBytes (hwf v hv))
  | U16 d =>
    refine ⟨rfl, ?_, ?_⟩
    · exact flatMap_length_const u16_le d (fun x _ => rfl)
    · show chunksExact 2 (d.flatMap u16_le) = d.map (leBytes 2)
      rw [chunksExact_flatMap (by norm_num) u16_le d (fun x _ => rfl)]
      exact List.map_congr_left (fun v _ => u16_le_eq_leBytes v)
  | U32 d =>
    refine ⟨rfl, ?_, ?_⟩
    · exact flatMap_length_const u32_le d (fun x _ => rfl)
    · show chunksExact 4 (d.flatMap u32_le) = d.map (leBytes 4)
      rw [chunksExact_flatMap (by norm_num) u32_le d (fun x _ => rfl)]
      exact List.map_congr_left (fun v _ => u32_le_eq_leBytes v)
  | U64 d =>
    refine ⟨rfl, ?_, ?_⟩
    · exact flatMap_length_const u64_le d (fun x _ => rfl)
    · show chunksExact 8 (d.flatMap u64_le) = d.map (leBytes 8)
      rw [chunksExact_flatMap (by norm_num) u64_le d (fun x _ => rfl)]
      exact List.map_congr_left (fun v _ => u64_le_eq_leBytes v)
  | I8 d =>
    refine ⟨rfl, ?_, ?_⟩
    · show (d.map (toUnsigned 8)).length = d.length * 1
      simp
    · show chunksExact 1 (d.map (toUnsigned 8)) =
        (d.map (toUnsigned 8)).map (leBytes 1)
      have hfm : (d.map (toUnsigned 8)).flatMap (fun v => [v]) =
          d.map (toUnsigned 8) := by simp
      conv_lhs => rw [← hfm]
      rw [@chunksExact_flatMap Nat 1 (by norm_num) (fun v => [v])
        (d.map (toUnsigned 8)) (fun x _ => rfl)]
      refine List.map_congr_left ?_
      intro v hv
      obtain ⟨w, _, rfl⟩ := List.mem_map.mp hv
      exact singleton_eq_leBytes (toUnsigned_lt 8 w)
  | I16 d =>
    refine ⟨rfl, ?_, ?_⟩
    · exact flatMap_length_const _ d (fun x _ => rfl)
    · show chunksExact 2 (d.flatMap fun v => u16_le (toUnsigned 16 v)) =
        (d.map (toUnsigned 16)).map (leBytes 2)
      rw [chunks_flatMap_enc (by norm_num) (toUnsigned 16) u16_le (fun x => rfl) d]
      exact List.map_congr_left (fun v _ => u16_le_eq_leBytes v)
  | I32 d =>
    refine ⟨rfl, ?_, ?_⟩
    · exact flatMap_length_const _ d (fun x _ => rfl)
    · show chunksExact 4 (d.flatMap fun v => u32_le (toUnsigned 32 v)) =
        (d.map (toUnsigned 32)).map (leBytes 4)
      rw [chunks_flatMap_enc (by norm_num) (toUnsigned 32) u32_le (fun x => rfl) d]
      exact List.map_congr_left (fun v _ => u32_le_eq_leBytes v)
  | I64 d =>
    refine ⟨rfl, ?_, ?_⟩
    · exact flatMap_length_const _ d (fun x _ => rfl)
    · show chunksExact 8 (d.flatMap fun v => u64_le (toUnsigned 64 v)) =
        (d.map (toUnsigned 64)).map (leBytes 8)
      rw [chunks_flatMap_enc (by norm_num) (toUnsigned 64) u64_le (fun x => rfl) d]
      exact List.map_congr_left (fun v _ => u64_le_eq_leBytes v)
  | F32 d =>
    refine ⟨rfl, ?_, ?_⟩
    · exact flatMap_length_const u32_le d (fun x _ => rfl)
    · show chunksExact 4 (d.flatMap u32_le) = d.map (leBytes 4)
      rw [chunksExact_flatMap (by norm_num) u32_le d (fun x _ => rfl)]
      exact List.map_congr_left (fun v _ => u32_le_eq_leBytes v)
  | F64 d =>
    refine ⟨rfl, ?_, ?_⟩
    · exact flatMap_length_const _ d (fun x _ => rfl)
    · show chunksExact 4 (d.flatMap fun v => u32_le (f64_to_f32 v)) =
        (d.map f64_to_f32).map (leBytes 4)
      rw [chunks_flatMap_enc (by norm_num) f64_to_f32 u32_le (fun x => rfl) d]
      exact List.map_congr_left (fun v _ => u32_le_eq_leBytes v)
  | F16 d =>
    have hb : (d.foldl f16Step ([], posInf32, negInf32)).1 =
        d.flatMap (fun h => u32_le (f16_to_f32 h)) := by
      rw [f16fold_components d ([], posInf32, negInf32)]
      rfl
    refine ⟨rfl, ?_, ?_⟩
    · show (d.foldl f16Step ([], posInf32, negInf32)).1.length = d.length * 4
      rw [hb]
      exact flatMap_length_const _ d (fun x _ => rfl)
    · show chunksExact 4 (d.foldl f16Step ([], posInf32, negInf32)).1 =
        (d.map f16_to_f32).map (leBytes 4)
      rw [hb, chunks_flatMap_enc (by norm_num) f16_to_f32 u32_le (fun x => rfl) d]
      exact List.map_congr_left (fun v _ => u32_le_eq_leBytes v)

/-- Witness for C1 at the 2×2 8-bit raster `[10, 20, 30, 40]` of §8. -/
theorem C1_canonical_encoder_table_witness :
    DecodingResult.wf (.U8 [10, 20, 30, 40]) ∧
    ((processResult (.U8 [10, 20, 30, 40])).2.1 =
        sampleFormatTag (.U8 [10, 20, 30, 40]) ∧
      (processResult (.U8 [10, 20, 30, 40])).1.length =
        elemCount (.U8 [10, 20, 30, 40]) * elemWidth (.U8 [10, 20, 30, 40]) ∧
      chunksExact (elemWidth (.U8 [10, 20, 30, 40]))
          (processResult (.U8 [10, 20, 30, 40])).1 =
        (transformedElems (.U8 [10, 20, 30, 40])).map
          (leBytes (elemWidth (.U8 [10, 20, 30, 40])))) :=
  ⟨by decide, C1_canonical_encoder_table (.U8 [10, 20, 30, 40]) (by decide)⟩

/-- **C6**: For every empty integer sample sequence of any of the eight
integer kinds, the Stats Reducer yields min equal to the type's maximum
value and max equal to the type's minimum value (so min > max). -/
theorem C6_empty_integer_stats :
    (compute_stats_u8 [] = (2 ^ 8 - 1, 0) ∧ (compute_stats_u8 []).2 < (compute_stats_u8 []).1) ∧
    (compute_stats_u16 [] = (2 ^ 16 - 1, 0) ∧ (compute_stats_u16 []).2 < (compute_stats_u16 []).1) ∧
    (compute_stats_u32 [] = (2 ^ 32 - 1, 0) ∧ (compute_stats_u32 []).2 < (compute_stats_u32 []).1) ∧
    (compute_stats_u64 [] = (2 ^ 64 - 1, 0) ∧ (compute_stats_u64 []).2 < (compute_stats_u64 []).1) ∧
    (compute_stats_i8 [] = (2 ^ 7 - 1, -2 ^ 7) ∧ (compute_stats_i8 []).2 < (compute_stats_i8 []).1) ∧
    (compute_stats_i16 [] = (2 ^ 15 - 1, -2 ^ 15) ∧ (compute_stats_i16 []).2 < (compute_stats_i16 []).1) ∧
    (compute_stats_i32 [] = (2 ^ 31 - 1, -2 ^ 31) ∧ (compute_stats_i32 []).2 < (compute_stats_i32 []).1) ∧
    (compute_stats_i64 [] = (2 ^ 63 - 1, -2 ^ 63) ∧ (compute_stats_i64 []).2 < (compute_stats_i64 []).1) := by
  refine ⟨⟨rfl, ?_⟩, ⟨rfl, ?_⟩, ⟨rfl, ?_⟩, ⟨rfl, ?_⟩, ⟨rfl, ?_⟩, ⟨rfl, ?_⟩,
    ⟨rfl, ?_⟩, ⟨rfl, ?_⟩⟩ <;> decide

/-- The exact values of the finite, non-NaN `f32` samples, in order
(the guard is exactly the source's `!v.is_nan() && v.is_finite()`). -/
def f32FiniteVals (l : List Nat) : List ℚ :=
  finVals (fun v => !f32_is_nan v && f32_is_finite v) val32q l

/-- The exact values of the finite, non-NaN `f64` samples, in order. -/
def f64FiniteVals (l : List Nat) : List ℚ :=
  finVals (fun v => !f64_is_nan v && f64_is_finite v) val64q l

/-- **C2**: For every 32-bit float and every 64-bit float sample sequence,
the Stats Reducer computes min and max over the finite, non-NaN values
only — NaN and ±Infinity are skipped entirely, not clamped (the result is
the least/greatest of exactly the finite values); the accumulators start
at `(+∞, -∞)` and a sequence with zero finite values returns that pair
unchanged. -/
theorem C2_float_stats_finite_only (l32 l64 : List Nat) :
    (f32FiniteVals l32 = [] → compute_stats_f32 l32 = (.inf false, .inf true)) ∧
    (f32FiniteVals l32 ≠ [] → ∃ a b : ℚ,
      compute_stats_f32 l32 = (.fin a, .fin b) ∧ a ∈ f32FiniteVals l32 ∧
      b ∈ f32FiniteVals l32 ∧ ∀ q ∈ f32FiniteVals l32, a ≤ q ∧ q ≤ b) ∧
    (f64FiniteVals l64 = [] → compute_stats_f64 l64 = (.inf false, .inf true)) ∧
    (f64FiniteVals l64 ≠ [] → ∃ a b : ℚ,
      compute_stats_f64 l64 = (.fin a, .fin b) ∧ a ∈ f64FiniteVals l64 ∧
      b ∈ f64FiniteVals l64 ∧ ∀ q ∈ f64FiniteVals l64, a ≤ q ∧ q ≤ b) :=
  ⟨fun h => statFold_empty _ _ l32 h,
   fun h => statFold_spec _ _ l32 h,
   fun h => statFold_empty _ _ l64 h,
   fun h => statFold_spec _ _ l64 h⟩

/-- Witness for C2 at the §8 example `[1.0, NaN, -5.0, +∞]` (as `f32` bit
patterns): the finite-value list is nonempty and the characterization
applies. -/
theorem C2_float_stats_finite_only_witness :
    f32FiniteVals [1065353216, 2143289344, 3231711232, 2139095040] ≠ [] ∧
    (∃ a b : ℚ,
      compute_stats_f32 [1065353216, 2143289344, 3231711232, 2139095040] =
        (.fin a, .fin b) ∧
      a ∈ f32FiniteVals [1065353216, 2143289344, 3231711232, 2139095040] ∧
      b ∈ f32FiniteVals [1065353216, 2143289344, 3231711232, 2139095040] ∧
      ∀ q ∈ f32FiniteVals [1065353216, 2143289344, 3231711232, 2139095040],
        a ≤ q ∧ q ≤ b) :=
  ⟨by decide,
   (C2_float_stats_finite_only
     [1065353216, 2143289344, 3231711232, 2139095040] []).2.1 (by decide)⟩

/-- **C5**: For every 64-bit float sample sequence, the canonical byte
buffer consists of each value narrowed to 32-bit float and encoded
little-endian (4 bytes per element), while the reported min/max statistics
are computed in full 64-bit precision over the original values (they are
the exact least/greatest rational value among the finite original
samples, not the narrowed ones). -/
theorem C5_f64_narrowed_bytes_full_precision_stats (l : List Nat) :
    (processResult (.F64 l)).1.length = l.length * 4 ∧
    chunksExact 4 (processResult (.F64 l)).1 =
      l.map (fun v => u32_le (f64_to_f32 v)) ∧
    (processResult (.F64 l)).2.1 = 3 ∧
    (f64FiniteVals l = [] →
      ((processResult (.F64 l)).2.2.1, (processResult (.F64 l)).2.2.2) =
        (.inf false, .inf true)) ∧
    (f64FiniteVals l ≠ [] → ∃ a b : ℚ,
      ((processResult (.F64 l)).2.2.1, (processResult (.F64 l)).2.2.2) =
        (.fin a, .fin b) ∧
      a ∈ f64FiniteVals l ∧ b ∈ f64FiniteVals l ∧
      ∀ q ∈ f64FiniteVals l, a ≤ q ∧ q ≤ b) := by
  refine ⟨?_, ?_, rfl, ?_, ?_⟩
  · exact flatMap_length_const _ l (fun x _ => rfl)
  · show chunksExact 4 (l.flatMap fun v => u32_le (f64_to_f32 v)) = _
    rw [chunks_flatMap_enc (by norm_num) f64_to_f32 u32_le (fun x => rfl) l,
      List.map_map]
    rfl
  · intro h
    have := statFold_empty (fun v => !f64_is_nan v && f64_is_finite v) val64q l h
    show ((compute_stats_f64 l).1, (compute_stats_f64 l).2) = _
    rw [show compute_stats_f64 l = statFold _ _ l from rfl, this]
  · intro h
    obtain ⟨a, b, heq, ha, hb, hq⟩ :=
      statFold_spec (fun v => !f64_is_nan v && f64_is_finite v) val64q l h
    refine ⟨a, b, ?_, ha, hb, hq⟩
    show ((compute_stats_f64 l).1, (compute_stats_f64 l).2) = _
    rw [show compute_stats_f64 l = statFold _ _ l from rfl, heq]

/-- Witness for C5 at the one-element raster `[1.5]` (as an `f64` bit
pattern). -/
theorem C5_f64_narrowed_bytes_full_precision_stats_witness :
    f64FiniteVals [4609434218613702656] ≠ [] ∧
    (∃ a b : ℚ,
      ((processResult (.F64 [4609434218613702656])).2.2.1,
       (processResult (.F64 [4609434218613702656])).2.2.2) = (.fin a, .fin b) ∧
      a ∈ f64FiniteVals [4609434218613702656] ∧
      b ∈ f64FiniteVals [4609434218613702656] ∧
      ∀ q ∈ f64FiniteVals [4609434218613702656], a ≤ q ∧ q ≤ b) :=
  ⟨by decide,
   (C5_f64_narrowed_bytes_full_precision_stats [4609434218613702656]).2.2.2.2
     (by decide)⟩

/-- **C3 counterexample**: the claim says a half-precision sequence with
zero finite values yields min = +∞ and max = -∞; but on the singleton
`[+∞]` (f16 bit pattern `31744`) the source's F16 branch — which performs
no finiteness test — propagates the infinity into the maximum: the decode
reports max = +∞, not -∞. -/
theorem C3_f16_infinity_not_skipped_counterexample :
    (processResult (.F16 [31744])).2.2.2 = FVal.inf false ∧
    FVal.inf false ≠ FVal.inf true := by
  constructor
  · decide
  · decide

/-- **C3 (amended)**: Each half-precision value is converted to 32-bit
float before the comparisons, and NaN values are skipped entirely (all
comparisons against NaN are false, and an all-NaN sequence leaves
min = +∞, max = -∞); but ±Infinity values are NOT skipped: the reported
min is a lower bound of every non-NaN widened sample including infinite
ones (and is +∞ or one of the widened samples), and dually the reported
max is an upper bound of every non-NaN widened sample (and is -∞ or one
of the widened samples). -/
theorem C3_f16_stats_amended (l : List Nat) :
    ((processResult (.F16 l)).2.2.1 = .inf false ∨
      (processResult (.F16 l)).2.2.1 ∈
        l.map (fun h => val32sem (f16_to_f32 h))) ∧
    (∀ h ∈ l, (val32sem (f16_to_f32 h)).isNan = false →
      FVal.leb (processResult (.F16 l)).2.2.1 (val32sem (f16_to_f32 h)) = true) ∧
    ((processResult (.F16 l)).2.2.2 = .inf true ∨
      (processResult (.F16 l)).2.2.2 ∈
        l.map (fun h => val32sem (f16_to_f32 h))) ∧
    (∀ h ∈ l, (val32sem (f16_to_f32 h)).isNan = false →
      FVal.leb (val32sem (f16_to_f32 h)) (processResult (.F16 l)).2.2.2 = true) ∧
    ((∀ h ∈ l, (val32sem (f16_to_f32 h)).isNan = true) →
      (processResult (.F16 l)).2.2.1 = .inf false ∧
      (processResult (.F16 l)).2.2.2 = .inf true) := by
  have hshow1 : (processResult (.F16 l)).2.2.1 =
      val32sem (f16MinRun posInf32 l) := by
    show val32sem (l.foldl f16Step ([], posInf32, negInf32)).2.1 = _
    rw [f16fold_components l ([], posInf32, negInf32)]
  have hshow2 : (processResult (.F16 l)).2.2.2 =
      val32sem (f16MaxRun negInf32 l) := by
    show val32sem (l.foldl f16Step ([], posInf32, negInf32)).2.2 = _
    rw [f16fold_components l ([], posInf32, negInf32)]
  have hpn : (val32sem posInf32).isNan = false := by decide
  have hnn : (val32sem negInf32).isNan = false := by decide
  obtain ⟨mn1, mn2, mn3, mn4⟩ := f16MinRun_spec l posInf32 hpn
  obtain ⟨mx1, mx2, mx3, mx4⟩ := f16MaxRun_spec l negInf32 hnn
  refine ⟨?_, ?_, ?_, ?_, ?_⟩
  · rw [hshow1]
    rcases List.mem_cons.mp mn4 with h | h
    · left
      rw [h]
      decide
    · right
      obtain ⟨w, hw, hweq⟩ := List.mem_map.mp h
      exact List.mem_map.mpr ⟨w, hw, by rw [hweq]⟩
  · intro h hh hnan
    rw [hshow1]
    exact mn3 h hh hnan
  · rw [hshow2]
    rcases List.mem_cons.mp mx4 with h | h
    · left
      rw [h]
      decide
    · right
      obtain ⟨w, hw, hweq⟩ := List.mem_map.mp h
      exact List.mem_map.mpr ⟨w, hw, by rw [hweq]⟩
  · intro h hh hnan
    rw [hshow2]
    exact mx3 h hh hnan
  · intro hall
    have h1 := f16MinRun_all_nan l posInf32 hall
    have h2 := f16MaxRun_all_nan l negInf32 hall
    rw [hshow1, hshow2, h1, h2]
    exact ⟨by decide, by decide⟩

/-- Witness for the amended C3 at the singleton `[1.0]` (f16 bit pattern
`15360`): the reported min is a lower bound of the widened sample. -/
theorem C3_f16_stats_amended_witness :
    (val32sem (f16_to_f32 15360)).isNan = false ∧
    FVal.leb (processResult (.F16 [15360])).2.2.1
      (val32sem (f16_to_f32 15360)) = true :=
  ⟨by decide, (C3_f16_stats_amended [15360]).2.1 15360 (by decide) (by decide)⟩

theorem f32_finite_guard {v : Nat} (h : f32_is_finite v = true) :
    (!f32_is_nan v && f32_is_finite v) = true := by
  have : f32_is_nan v = false := by
    unfold f32_is_nan
    unfold f32_is_finite at h
    simp_all
  simp [this, h]

theorem f64_finite_guard {v : Nat} (h : f64_is_finite v = true) :
    (!f64_is_nan v && f64_is_finite v) = true := by
  have : f64_is_nan v = false := by
    unfold f64_is_nan
    unfold f64_is_finite at h
    simp_all
  simp [this, h]

theorem finVals_ne_nil {p : Nat → Bool} {g : Nat → ℚ} {l : List Nat}
    (h : ∃ v ∈ l, p v = true) : finVals p g l ≠ [] := by
  obtain ⟨v, hv, hp⟩ := h
  intro hnil
  have := List.filterMap_eq_nil.mp hnil v hv
  rw [hp] at this
  simp at this

/-- **C9**: For every decode result, if the input sample sequence contains
at least one finite value then minValue ≤ maxValue, across all eleven
SampleKind variants (samples within their machine-type range). -/
theorem C9_min_le_max (dr : DecodingResult) (hwf : dr.wf)
    (hfin : hasFiniteSample dr) :
    FVal.leb (processResult dr).2.2.1 (processResult dr).2.2.2 = true := by
  cases dr with
  | U8 d =>
    have hle := minMaxFold_le ((2 ^ 8 - 1 : Nat), (0 : Nat)) d hfin
    have hmem := minMaxFold_mem_snd d ((2 ^ 8 - 1 : Nat), (0 : Nat))
    have hbound : (compute_stats_u8 d).2 < 2 ^ 64 := by
      rcases List.mem_cons.mp hmem with h | h
      · rw [compute_stats_u8, h]
        norm_num
      · have := hwf _ h
        show (minMaxFold _ d).2 < 2 ^ 64
        omega
    exact castU64F64_leb hle hbound
  | U16 d =>
    have hle := minMaxFold_le ((2 ^ 16 - 1 : Nat), (0 : Nat)) d hfin
    have hmem := minMaxFold_mem_snd d ((2 ^ 16 - 1 : Nat), (0 : Nat))
    have hbound : (compute_stats_u16 d).2 < 2 ^ 64 := by
      rcases List.mem_cons.mp hmem with h | h
      · rw [compute_stats_u16, h]
        norm_num
      · have := hwf _ h
        show (minMaxFold _ d).2 < 2 ^ 64
        omega
    exact castU64F64_leb hle hbound
  | U32 d =>
    have hle := minMaxFold_le ((2 ^ 32 - 1 : Nat), (0 : Nat)) d hfin
    have hmem := minMaxFold_mem_snd d ((2 ^ 32 - 1 : Nat), (0 : Nat))
    have hbound : (compute_stats_u32 d).2 < 2 ^ 64 := by
      rcases List.mem_cons.mp hmem with h | h
      · rw [compute_stats_u32, h]
        norm_num
      · have := hwf _ h
        show (minMaxFold _ d).2 < 2 ^ 64
        omega
    exact castU64F64_leb hle hbound
  | U64 d =>
    have hle := minMaxFold_le ((2 ^ 64 - 1 : Nat), (0 : Nat)) d hfin
    have hmem := minMaxFold_mem_snd d ((2 ^ 64 - 1 : Nat), (0 : Nat))
    have hbound : (compute_stats_u64 d).2 < 2 ^ 64 := by
      rcases List.mem_cons.mp hmem with h | h
      · rw [compute_stats_u64, h]
        norm_num
      · have := hwf _ h
        show (minMaxFold _ d).2 < 2 ^ 64
        omega
    exact castU64F64_leb hle hbound
  | I8 d =>
    have hle := minMaxFold_le ((2 ^ 7 - 1 : Int), (-2 ^ 7 : Int)) d hfin
    have hmem1 := minMaxFold_mem_fst d ((2 ^ 7 - 1 : Int), (-2 ^ 7 : Int))
    have hmem2 := minMaxFold_mem_snd d ((2 ^ 7 - 1 : Int), (-2 ^ 7 : Int))
    have hb1 : -2 ^ 63 ≤ (compute_stats_i8 d).1 := by
      rcases List.mem_cons.mp hmem1 with h | h
      · show -2 ^ 63 ≤ (minMaxFold _ d).1
        omega
      · have := hwf _ h
        show -2 ^ 63 ≤ (minMaxFold _ d).1
        omega
    have hb2 : (compute_stats_i8 d).2 ≤ 2 ^ 63 := by
      rcases List.mem_cons.mp hmem2 with h | h
      · show (minMaxFold _ d).2 ≤ 2 ^ 63
        omega
      · have := hwf _ h
        show (minMaxFold _ d).2 ≤ 2 ^ 63
        omega
    exact castI64F64_leb hle hb1 hb2
  | I16 d =>
    have hle := minMaxFold_le ((2 ^ 15 - 1 : Int), (-2 ^ 15 : Int)) d hfin
    have hmem1 := minMaxFold_mem_fst d ((2 ^ 15 - 1 : Int), (-2 ^ 15 : Int))
    have hmem2 := minMaxFold_mem_snd d ((2 ^ 15 - 1 : Int), (-2 ^ 15 : Int))
    have hb1 : -2 ^ 63 ≤ (compute_stats_i16 d).1 := by
      rcases List.mem_cons.mp hmem1 with h | h
      · show -2 ^ 63 ≤ (minMaxFold _ d).1
        omega
      · have := hwf _ h
        show -2 ^ 63 ≤ (minMaxFold _ d).1
        omega
    have hb2 : (compute_stats_i16 d).2 ≤ 2 ^ 63 := by
      rcases List.mem_cons.mp hmem2 with h | h
      · show (minMaxFold _ d).2 ≤ 2 ^ 63
        omega
      · have := hwf _ h
        show (minMaxFold _ d).2 ≤ 2 ^ 63
        omega
    exact castI64F64_leb hle hb1 hb2
  | I32 d =>
    have hle := minMaxFold_le ((2 ^ 31 - 1 : Int), (-2 ^ 31 : Int)) d hfin
    have hmem1 := minMaxFold_mem_fst d ((2 ^ 31 - 1 : Int), (-2 ^ 31 : Int))
    have hmem2 := minMaxFold_mem_snd d ((2 ^ 31 - 1 : Int), (-2 ^ 31 : Int))
    have hb1 : -2 ^ 63 ≤ (compute_stats_i32 d).1 := by
      rcases List.mem_cons.mp hmem1 with h | h
      · show -2 ^ 63 ≤ (minMaxFold _ d).1
        omega
      · have := hwf _ h
        show -2 ^ 63 ≤ (minMaxFold _ d).1
        omega
    have hb2 : (compute_stats_i32 d).2 ≤ 2 ^ 63 := by
      rcases List.mem_cons.mp hmem2 with h | h
      · show (minMaxFold _ d).2 ≤ 2 ^ 63
        omega
      · have := hwf _ h
        show (minMaxFold _ d).2 ≤ 2 ^ 63
        omega
    exact castI64F64_leb hle hb1 hb2
  | I64 d =>
    have hle := minMaxFold_le ((2 ^ 63 - 1 : Int), (-2 ^ 63 : Int)) d hfin
    have hmem1 := minMaxFold_mem_fst d ((2 ^ 63 - 1 : Int), (-2 ^ 63 : Int))
    have hmem2 := minMaxFold_mem_snd d ((2 ^ 63 - 1 : Int), (-2 ^ 63 : Int))
    have hb1 : -2 ^ 63 ≤ (compute_stats_i64 d).1 := by
      rcases List.mem_cons.mp hmem1 with h | h
      · show -2 ^ 63 ≤ (minMaxFold _ d).1
        omega
      · have := hwf _ h
        show -2 ^ 63 ≤ (minMaxFold _ d).1
        omega
    have hb2 : (compute_stats_i64 d).2 ≤ 2 ^ 63 := by
      rcases List.mem_cons.mp hmem2 with h | h
      · show (minMaxFold _ d).2 ≤ 2 ^ 63
        omega
      · have := hwf _ h
        show (minMaxFold _ d).2 ≤ 2 ^ 63
        omega
    exact castI64F64_leb hle hb1 hb2
  | F32 d =>
    have hne : f32FiniteVals d ≠ [] := by
      obtain ⟨v, hv, hp⟩ := hfin
      exact finVals_ne_nil ⟨v, hv, f32_finite_guard hp⟩
    obtain ⟨a, b, heq, _, hbm, hq⟩ := statFold_spec _ _ d hne
    show FVal.leb (compute_stats_f32 d).1 (compute_stats_f32 d).2 = true
    rw [show compute_stats_f32 d = statFold _ _ d from rfl, heq]
    have hab : a ≤ b := (hq b hbm).1
    simp [FVal.leb, hab]
  | F64 d =>
    have hne : f64FiniteVals d ≠ [] := by
      obtain ⟨v, hv, hp⟩ := hfin
      exact finVals_ne_nil ⟨v, hv, f64_finite_guard hp⟩
    obtain ⟨a, b, heq, _, hbm, hq⟩ := statFold_spec _ _ d hne
    show FVal.leb (compute_stats_f64 d).1 (compute_stats_f64 d).2 = true
    rw [show compute_stats_f64 d = statFold _ _ d from rfl, heq]
    have hab : a ≤ b := (hq b hbm).1
    simp [FVal.leb, hab]
  | F16 d =>
    obtain ⟨x, hx, hxf⟩ := hfin
    have hxn : (val32sem (f16_to_f32 x)).isNan = false :=
      f16_to_f32_finite_not_nan hxf
    have hc := f16fold_components d ([], posInf32, negInf32)
    show FVal.leb (val32sem (d.foldl f16Step ([], posInf32, negInf32)).2.1)
      (val32sem (d.foldl f16Step ([], posInf32, negInf32)).2.2) = true
    rw [hc]
    obtain ⟨_, _, mn3, _⟩ := f16MinRun_spec d posInf32 (by decide)
    obtain ⟨_, _, mx3, _⟩ := f16MaxRun_spec d negInf32 (by decide)
    exact FVal.leb_trans (mn3 x hx hxn) (mx3 x hx hxn)

/-- Witness for C9 at the raster `[10, 20]` of unsigned bytes. -/
theorem C9_min_le_max_witness :
    DecodingResult.wf (.U8 [10, 20]) ∧ hasFiniteSample (.U8 [10, 20]) ∧
    FVal.leb (processResult (.U8 [10, 20])).2.2.1
      (processResult (.U8 [10, 20])).2.2.2 = true :=
  ⟨by decide, by decide, C9_min_le_max (.U8 [10, 20]) (by decide) (by decide)⟩

/-! ### Case equations for the Float32 View Converter -/

theorem gdf32_sf3 (r : TiffResult) (h : r.sample_format = 3) :
    r.get_data_as_f32 = (chunksExact 4 r.data).map from_le4 := by
  unfold TiffResult.get_data_as_f32
  rw [h]

theorem gdf32_int8 (r : TiffResult) (h : r.sample_format = 1 ∨ r.sample_format = 2)
    (hb : r.bits_per_sample = 8) : r.get_data_as_f32 = r.data.map natCastF32 := by
  unfold TiffResult.get_data_as_f32
  rcases h with h | h <;> rw [h, hb]

theorem gdf32_int16 (r : TiffResult) (h : r.sample_format = 1 ∨ r.sample_format = 2)
    (hb : r.bits_per_sample = 16) :
    r.get_data_as_f32 = (chunksExact 2 r.data).map (fun c => natCastF32 (from_le2 c)) := by
  unfold TiffResult.get_data_as_f32
  rcases h with h | h <;> rw [h, hb]

theorem gdf32_int32 (r : TiffResult) (h : r.sample_format = 1 ∨ r.sample_format = 2)
    (hb : r.bits_per_sample = 32) :
    r.get_data_as_f32 = (chunksExact 4 r.data).map (fun c => natCastF32 (from_le4 c)) := by
  unfold TiffResult.get_data_as_f32
  rcases h with h | h <;> rw [h, hb]

theorem gdf32_int_other (r : TiffResult)
    (h : r.sample_format = 1 ∨ r.sample_format = 2) (h8 : r.bits_per_sample ≠ 8)
    (h16 : r.bits_per_sample ≠ 16) (h32 : r.bits_per_sample ≠ 32) :
    r.get_data_as_f32 = [] := by
  unfold TiffResult.get_data_as_f32
  rcases h with h | h <;> rw [h] <;> · split <;> simp_all

theorem gdf32_sf_other (r : TiffResult) (h1 : r.sample_format ≠ 1)
    (h2 : r.sample_format ≠ 2) (h3 : r.sample_format ≠ 3) :
    r.get_data_as_f32 = [] := by
  unfold TiffResult.get_data_as_f32
  split <;> simp_all

/-! ### C8: metadata defaults -/

/-- **C8**: During decode, each of the four metadata fields (compression,
predictor, photometricInterpretation, planarConfiguration) is looked up
independently and independently defaults to 1 when its tag is absent; a
missing tag never fails (the extractor is a total function) and never
affects the other three fields (each field depends only on its own tag's
lookup). -/
theorem C8_metadata_independent_defaults (t t' : Nat → Option Nat) :
    (t tagCompression = none → (extract_metadata t).1 = 1) ∧
    (t tagPredictor = none → (extract_metadata t).2.1 = 1) ∧
    (t tagPhotometric = none → (extract_metadata t).2.2.1 = 1) ∧
    (t tagPlanar = none → (extract_metadata t).2.2.2 = 1) ∧
    (t tagCompression = t' tagCompression →
      (extract_metadata t).1 = (extract_metadata t').1) ∧
    (t tagPredictor = t' tagPredictor →
      (extract_metadata t).2.1 = (extract_metadata t').2.1) ∧
    (t tagPhotometric = t' tagPhotometric →
      (extract_metadata t).2.2.1 = (extract_metadata t').2.2.1) ∧
    (t tagPlanar = t' tagPlanar →
      (extract_metadata t).2.2.2 = (extract_metadata t').2.2.2) := by
  refine ⟨?_, ?_, ?_, ?_, ?_, ?_, ?_, ?_⟩ <;> intro h <;>
    simp [extract_metadata, h]

/-- Witness for C8: with no tags present at all, every field is 1. -/
theorem C8_metadata_independent_defaults_witness :
    ((fun _ => none : Nat → Option Nat) tagCompression = none) ∧
    (extract_metadata (fun _ => none)).1 = 1 :=
  ⟨rfl, (C8_metadata_independent_defaults (fun _ => none) (fun _ => none)).1 rfl⟩

/-! ### C4: integer round-trip through the Float32 View Converter -/

theorem from_le2_u16_le {v : Nat} (h : v < 2 ^ 16) : from_le2 (u16_le v) = v := by
  simp only [from_le2, u16_le, List.getD]
  simp
  omega

theorem from_le4_u32_le {v : Nat} (h : v < 2 ^ 32) : from_le4 (u32_le v) = v := by
  simp only [from_le4, u32_le, List.getD]
  simp
  omega

theorem toUnsigned_of_nonneg {w : Nat} {v : Int} (h0 : 0 ≤ v) (h : v < 2 ^ w) :
    toUnsigned w v = v.toNat := by
  unfold toUnsigned
  have hlt : v < ((2 ^ w : Nat) : Int) := by
    have : ((2 ^ w : Nat) : Int) = 2 ^ w := by push_cast; ring
    omega
  rw [Int.emod_eq_of_lt h0 hlt]

theorem intCastF32_of_nonneg {v : Int} (h0 : 0 ≤ v) :
    intCastF32 v = natCastF32 v.toNat := by
  unfold intCastF32 natCastF32
  have h1 : decide (v < 0) = false := by
    simp
    omega
  rw [h1]
  congr 1
  omega

/-- **C4 counterexample**: the claim promises the float32 view returns the
original values cast to float for signed kinds too; but a signed 8-bit
raster holding `-1` is stored as the unsigned byte `255` and the view
returns `255.0`, not `(-1 : f32)`. -/
theorem C4_signed_roundtrip_counterexample :
    TiffResult.get_data_as_f32 (decode_core 1 1 1 8 (fun _ => none) (.I8 [-1])) =
      [natCastF32 255] ∧
    natCastF32 255 ≠ intCastF32 (-1) := by
  constructor
  · decide
  · decide

/-- **C4 (amended)**: For every all-integer raster of N elements whose bit
depth is at most 32, encoding produces a byte buffer of length
N × elementWidth, and applying the Float32 View Converter to the decode
result yields exactly the original sample values cast to 32-bit float for
the unsigned kinds; for the signed kinds the stored bytes are the
two's-complement reinterpretation read back as unsigned, so the view
equals the original values cast to float exactly when all samples are
nonnegative (negative samples yield the cast of their unsigned
reinterpretation instead, as the counterexample shows). -/
theorem C4_integer_roundtrip_amended :
    (∀ (w h c : Nat) (tags : Nat → Option Nat) (d : List Nat),
      (∀ v ∈ d, v < 2 ^ 8) →
      (decode_core w h c 8 tags (.U8 d)).data.length = d.length * 1 ∧
      (decode_core w h c 8 tags (.U8 d)).get_data_as_f32 = d.map natCastF32) ∧
    (∀ (w h c : Nat) (tags : Nat → Option Nat) (d : List Nat),
      (∀ v ∈ d, v < 2 ^ 16) →
      (decode_core w h c 16 tags (.U16 d)).data.length = d.length * 2 ∧
      (decode_core w h c 16 tags (.U16 d)).get_data_as_f32 = d.map natCastF32) ∧
    (∀ (w h c : Nat) (tags : Nat → Option Nat) (d : List Nat),
      (∀ v ∈ d, v < 2 ^ 32) →
      (decode_core w h c 32 tags (.U32 d)).data.length = d.length * 4 ∧
      (decode_core w h c 32 tags (.U32 d)).get_data_as_f32 = d.map natCastF32) ∧
    (∀ (w h c : Nat) (tags : Nat → Option Nat) (d : List Int),
      (∀ v ∈ d, 0 ≤ v ∧ v < 2 ^ 7) →
      (decode_core w h c 8 tags (.I8 d)).data.length = d.length * 1 ∧
      (decode_core w h c 8 tags (.I8 d)).get_data_as_f32 = d.map intCastF32) ∧
    (∀ (w h c : Nat) (tags : Nat → Option Nat) (d : List Int),
      (∀ v ∈ d, 0 ≤ v ∧ v < 2 ^ 15) →
      (decode_core w h c 16 tags (.I16 d)).data.length = d.length * 2 ∧
      (decode_core w h c 16 tags (.I16 d)).get_data_as_f32 = d.map intCastF32) ∧
    (∀ (w h c : Nat) (tags : Nat → Option Nat) (d : List Int),
      (∀ v ∈ d, 0 ≤ v ∧ v < 2 ^ 31) →
      (decode_core w h c 32 tags (.I32 d)).data.length = d.length * 4 ∧
      (decode_core w h c 32 tags (.I32 d)).get_data_as_f32 = d.map intCastF32) := by
  refine ⟨?_, ?_, ?_, ?_, ?_, ?_⟩
  · intro w h c tags d hd
    refine ⟨by show d.length = d.length * 1; omega, ?_⟩
    rw [gdf32_int8 _ (Or.inl rfl) rfl]
    rfl
  · intro w h c tags d hd
    refine ⟨flatMap_length_const u16_le d (fun x _ => rfl), ?_⟩
    rw [gdf32_int16 _ (Or.inl rfl) rfl]
    show (chunksExact 2 (d.flatMap u16_le)).map _ = _
    rw [chunksExact_flatMap (by norm_num) u16_le d (fun x _ => rfl), List.map_map]
    refine List.map_congr_left ?_
    intro v hv
    show natCastF32 (from_le2 (u16_le v)) = natCastF32 v
    rw [from_le2_u16_le (hd v hv)]
  · intro w h c tags d hd
    refine ⟨flatMap_length_const u32_le d (fun x _ => rfl), ?_⟩
    rw [gdf32_int32 _ (Or.inl rfl) rfl]
    show (chunksExact 4 (d.flatMap u32_le)).map _ = _
    rw [chunksExact_flatMap (by norm_num) u32_le d (fun x _ => rfl), List.map_map]
    refine List.map_congr_left ?_
    intro v hv
    show natCastF32 (from_le4 (u32_le v)) = natCastF32 v
    rw [from_le4_u32_le (hd v hv)]
  · intro w h c tags d hd
    refine ⟨by show (d.map (toUnsigned 8)).length = d.length * 1; simp, ?_⟩
    rw [gdf32_int8 _ (Or.inr rfl) rfl]
    show (d.map (toUnsigned 8)).map natCastF32 = _
    rw [List.map_map]
    refine List.map_congr_left ?_
    intro v hv
    show natCastF32 (toUnsigned 8 v) = intCastF32 v
    obtain ⟨h0, hlt⟩ := hd v hv
    rw [toUnsigned_of_nonneg h0 (by omega), intCastF32_of_nonneg h0]
  · intro w h c tags d hd
    refine ⟨flatMap_length_const _ d (fun x _ => rfl), ?_⟩
    rw [gdf32_int16 _ (Or.inr rfl) rfl]
    show (chunksExact 2 (d.flatMap fun v => u16_le (toUnsigned 16 v))).map _ = _
    rw [chunks_flatMap_enc (by norm_num) (toUnsigned 16) u16_le (fun x => rfl) d,
      List.map_map, List.map_map]
    refine List.map_congr_left ?_
    intro v hv
    show natCastF32 (from_le2 (u16_le (toUnsigned 16 v))) = intCastF32 v
    obtain ⟨h0, hlt⟩ := hd v hv
    rw [from_le2_u16_le (toUnsigned_lt 16 v),
      toUnsigned_of_nonneg h0 (by omega), intCastF32_of_nonneg h0]
  · intro w h c tags d hd
    refine ⟨flatMap_length_const _ d (fun x _ => rfl), ?_⟩
    rw [gdf32_int32 _ (Or.inr rfl) rfl]
    show (chunksExact 4 (d.flatMap fun v => u32_le (toUnsigned 32 v))).map _ = _
    rw [chunks_flatMap_enc (by norm_num) (toUnsigned 32) u32_le (fun x => rfl) d,
      List.map_map, List.map_map]
    refine List.map_congr_left ?_
    intro v hv
    show natCastF32 (from_le4 (u32_le (toUnsigned 32 v))) = intCastF32 v
    obtain ⟨h0, hlt⟩ := hd v hv
    rw [from_le4_u32_le (toUnsigned_lt 32 v),
      toUnsigned_of_nonneg h0 (by omega), intCastF32_of_nonneg h0]

/-- Witness for the amended C4: the 16-bit unsigned raster `[513]`
round-trips to `[513.0]`. -/
theorem C4_integer_roundtrip_amended_witness :
    (∀ v ∈ [513], v < 2 ^ 16) ∧
    ((decode_core 1 1 1 16 (fun _ => none) (.U16 [513])).data.length =
        ([513] : List Nat).length * 2 ∧
      (decode_core 1 1 1 16 (fun _ => none) (.U16 [513])).get_data_as_f32 =
        ([513] : List Nat).map natCastF32) :=
  ⟨by decide,
   (C4_integer_roundtrip_amended.2.1 1 1 1 (fun _ => none) [513]) (by decide)⟩

/-- **C7**: The Float32 View Converter is total and never fails: for
sample format tag 3 it reinterprets every 4 bytes as a little-endian
32-bit float; for tags 1 and 2 it branches on the original bit depth and
decodes elements as unsigned little-endian of widths 8, 16 or 32 then
casts to float32; for any other bit depth (including 64) it returns the
empty sequence rather than an error, and likewise for any other sample
format. -/
theorem C7_view_converter_total (r : TiffResult) :
    (r.sample_format = 3 →
      r.get_data_as_f32.length = r.data.length / 4 ∧
      ∀ i < r.data.length / 4, r.get_data_as_f32.get? i =
        some (from_le4 ((r.data.drop (4 * i)).take 4))) ∧
    ((r.sample_format = 1 ∨ r.sample_format = 2) →
      (r.bits_per_sample = 8 → r.get_data_as_f32 = r.data.map natCastF32) ∧
      (r.bits_per_sample = 16 →
        r.get_data_as_f32.length = r.data.length / 2 ∧
        ∀ i < r.data.length / 2, r.get_data_as_f32.get? i =
          some (natCastF32 (from_le2 ((r.data.drop (2 * i)).take 2)))) ∧
      (r.bits_per_sample = 32 →
        r.get_data_as_f32.length = r.data.length / 4 ∧
        ∀ i < r.data.length / 4, r.get_data_as_f32.get? i =
          some (natCastF32 (from_le4 ((r.data.drop (4 * i)).take 4)))) ∧
      (r.bits_per_sample ≠ 8 → r.bits_per_sample ≠ 16 → r.bits_per_sample ≠ 32 →
        r.get_data_as_f32 = [])) ∧
    (r.sample_format ≠ 1 → r.sample_format ≠ 2 → r.sample_format ≠ 3 →
      r.get_data_as_f32 = []) := by
  refine ⟨?_, ?_, ?_⟩
  · intro h3
    rw [gdf32_sf3 r h3]
    constructor
    · rw [List.length_map, chunksExact_length (by norm_num)]
    · intro i hi
      rw [List.get?_map, chunksExact_get? (by norm_num) _ i hi]
      rfl
  · intro hsf
    refine ⟨fun hb => gdf32_int8 r hsf hb, fun hb => ?_, fun hb => ?_,
      fun h8 h16 h32 => gdf32_int_other r hsf h8 h16 h32⟩
    · rw [gdf32_int16 r hsf hb]
      constructor
      · rw [List.length_map, chunksExact_length (by norm_num)]
      · intro i hi
        rw [List.get?_map, chunksExact_get? (by norm_num) _ i hi]
        rfl
    · rw [gdf32_int32 r hsf hb]
      constructor
      · rw [List.length_map, chunksExact_length (by norm_num)]
      · intro i hi
        rw [List.get?_map, chunksExact_get? (by norm_num) _ i hi]
        rfl
  · exact fun h1 h2 h3 => gdf32_sf_other r h1 h2 h3

/-- Witness for C7: a signed 64-bit decode (bit depth 64) yields the empty
float32 view instead of an error. -/
theorem C7_view_converter_total_witness :
    TiffResult.get_data_as_f32 (decode_core 1 1 1 64 (fun _ => none) (.I64 [5])) =
      [] :=
  ((C7_view_converter_total
      (decode_core 1 1 1 64 (fun _ => none) (.I64 [5]))).2.1
    (Or.inr rfl)).2.2.2 (by decide) (by decide) (by decide)

/-- **C10**: If a result's data buffer length is not a whole multiple of
the element byte width (4 bytes for sample format 3 or 32-bit integers,
2 bytes for 16-bit integers), `get_data_as_f32` silently ignores the
trailing remainder bytes and returns exactly `⌊length / elementWidth⌋`
elements: the view's length is the floor quotient for every buffer
length, and appending fewer than `elementWidth` junk bytes to a
whole-multiple buffer leaves the view unchanged.  (The converter is a
total function on every buffer length and sample-format/bit-depth
combination: it cannot panic.) -/
theorem C10_trailing_remainder_ignored (r : TiffResult) (d e : List Nat) :
    (r.sample_format = 3 → r.get_data_as_f32.length = r.data.length / 4) ∧
    ((r.sample_format = 1 ∨ r.sample_format = 2) → r.bits_per_sample = 16 →
      r.get_data_as_f32.length = r.data.length / 2) ∧
    ((r.sample_format = 1 ∨ r.sample_format = 2) → r.bits_per_sample = 32 →
      r.get_data_as_f32.length = r.data.length / 4) ∧
    (r.sample_format = 3 → 4 ∣ d.length → e.length < 4 →
      TiffResult.get_data_as_f32 {r with data := d ++ e} =
        TiffResult.get_data_as_f32 {r with data := d}) ∧
    ((r.sample_format = 1 ∨ r.sample_format = 2) → r.bits_per_sample = 16 →
      2 ∣ d.length → e.length < 2 →
      TiffResult.get_data_as_f32 {r with data := d ++ e} =
        TiffResult.get_data_as_f32 {r with data := d}) ∧
    ((r.sample_format = 1 ∨ r.sample_format = 2) → r.bits_per_sample = 32 →
      4 ∣ d.length → e.length < 4 →
      TiffResult.get_data_as_f32 {r with data := d ++ e} =
        TiffResult.get_data_as_f32 {r with data := d}) := by
  refine ⟨?_, ?_, ?_, ?_, ?_, ?_⟩
  · intro h3
    rw [gdf32_sf3 r h3, List.length_map, chunksExact_length (by norm_num)]
  · intro hsf hb
    rw [gdf32_int16 r hsf hb, List.length_map, chunksExact_length (by norm_num)]
  · intro hsf hb
    rw [gdf32_int32 r hsf hb, List.length_map, chunksExact_length (by norm_num)]
  · intro h3 hdvd he
    rw [gdf32_sf3 {r with data := d ++ e} h3, gdf32_sf3 {r with data := d} h3]
    show (chunksExact 4 (d ++ e)).map _ = (chunksExact 4 d).map _
    rw [chunksExact_append_junk (by norm_num) d e hdvd he]
  · intro hsf hb hdvd he
    rw [gdf32_int16 {r with data := d ++ e} hsf hb,
      gdf32_int16 {r with data := d} hsf hb]
    show (chunksExact 2 (d ++ e)).map _ = (chunksExact 2 d).map _
    rw [chunksExact_append_junk (by norm_num) d e hdvd he]
  · intro hsf hb hdvd he
    rw [gdf32_int32 {r with data := d ++ e} hsf hb,
      gdf32_int32 {r with data := d} hsf hb]
    show (chunksExact 4 (d ++ e)).map _ = (chunksExact 4 d).map _
    rw [chunksExact_append_junk (by norm_num) d e hdvd he]

/-- Witness for C10: a 5-byte float32 buffer yields `5 / 4 = 1` element,
and appending one junk byte to a whole 4-byte buffer leaves the view
unchanged. -/
theorem C10_trailing_remainder_ignored_witness :
    (TiffResult.get_data_as_f32
        { decode_core 1 1 1 32 (fun _ => none) (.F32 [0]) with
            data := [1, 2, 3, 4, 5] }).length =
      ([1, 2, 3, 4, 5] : List Nat).length / 4 ∧
    TiffResult.get_data_as_f32
        { decode_core 1 1 1 32 (fun _ => none) (.F32 [0]) with
            data := [1, 2, 3, 4] ++ [9] } =
      TiffResult.get_data_as_f32
        { decode_core 1 1 1 32 (fun _ => none) (.F32 [0]) with
            data := [1, 2, 3, 4] } :=
  ⟨(C10_trailing_remainder_ignored
      { decode_core 1 1 1 32 (fun _ => none) (.F32 [0]) with
          data := [1, 2, 3, 4, 5] } [] []).1 rfl,
   (C10_trailing_remainder_ignored
      { decode_core 1 1 1 32 (fun _ => none) (.F32 [0]) with
          data := [1, 2, 3, 4, 5] } [1, 2, 3, 4] [9]).2.2.2.1 rfl
     (by decide) (by decide)⟩
